import Mathlib

/-!
# Verification of the msgbid round scheduler and settlement engine

Shallow embedding of `src/msgbid-worker/src/scheduler.js` (the
`SchedulerDurableObject` class): bid intake, batch settlement (Vickrey
pricing, balance clamping, response fan-out), the alarm/threshold
triggering discipline, token generation and the HTTP router.

The durable storage's three key namespaces (`balance:<token>`,
`name:<token>`, `message:<ts>-<rand>`) are modelled as an association-list
balance map, a name map, and an append-only message log.  Balances and
bids are modelled as `Int` (the source treats them as JS numbers; all
validated bids are positive and balances are integer-valued).  The single
Durable Object is a serialized actor, so its operations are modelled as
atomic state transitions.
-/

namespace MsgBid

/-- A bid admitted to the batch: the source pushes `{ token, message, bid }`
(`scheduler.js:242`). -/
structure Bid where
  token : String
  message : String
  bid : Int
deriving DecidableEq, Repr

/-- Environment configuration (`scheduler.js:11-15`): batch threshold `N`,
alarm timeout, loser reward `ACCUMULATE_BAL`, initial balance `START_BAL`
and balance cap `MAX_BAL`. -/
structure Cfg where
  N : Nat
  timeout : Nat
  accumulate : Int
  start : Int
  max_bal : Int
deriving DecidableEq, Repr

/-- The documented defaults: `N=5, TIMEOUT=5000, ACCUMULATE_BAL=0,
START_BAL=10, MAX_BAL=100`. -/
def defCfg : Cfg := ⟨5, 5000, 0, 10, 100⟩

/-- One key namespace of the durable storage, as an association list in
insertion order. -/
abbrev Kv (α : Type) := List (String × α)

/-- `storage.get(key)`: the value of the first (and, for the states the
scheduler builds, only) binding of `k`. -/
def kvGet {α : Type} (m : Kv α) (k : String) : Option α :=
  (m.find? (fun p => p.1 == k)).map (·.2)

/-- `storage.put(key, value)`: overwrite the binding in place, or append a
new one. -/
def kvPut {α : Type} (m : Kv α) (k : String) (v : α) : Kv α :=
  match m with
  | [] => [(k, v)]
  | p :: ps => if p.1 = k then (k, v) :: ps else p :: kvPut ps k v

theorem kvGet_nil {α : Type} (k : String) : kvGet ([] : Kv α) k = none := rfl

theorem kvGet_cons {α : Type} (p : String × α) (ps : Kv α) (k : String) :
    kvGet (p :: ps) k = if p.1 = k then some p.2 else kvGet ps k := by
  rcases eq_or_ne p.1 k with h | h
  · simp [kvGet, List.find?, beq_iff_eq.mpr h, h]
  · simp [kvGet, List.find?, beq_eq_false_iff_ne.mpr h, h]

theorem kvGet_kvPut {α : Type} (m : Kv α) (k k' : String) (v : α) :
    kvGet (kvPut m k v) k' = if k' = k then some v else kvGet m k' := by
  induction m with
  | nil =>
    rcases eq_or_ne k' k with rfl | h
    · simp [kvPut, kvGet_cons]
    · simp [kvPut, kvGet_cons, kvGet_nil, h, Ne.symm h]
  | cons p ps ih =>
    by_cases h1 : p.1 = k
    · simp only [kvPut, if_pos h1, kvGet_cons]
      rcases eq_or_ne k' k with rfl | h
      · simp
      · have h3 : ¬ p.1 = k' := by rw [h1]; exact fun h2 => h h2.symm
        simp [Ne.symm h, h, kvGet_cons, h3]
    · simp only [kvPut, if_neg h1, kvGet_cons, ih]
      by_cases h2 : p.1 = k'
      · have h3 : ¬ k' = k := by rw [← h2]; exact h1
        simp [h2, h3]
      · simp [h2]

/-- `kvPut` never removes a binding. -/
theorem kvGet_kvPut_isSome {α : Type} (m : Kv α) (k k' : String) (v : α)
    (h : (kvGet m k').isSome) : (kvGet (kvPut m k v) k').isSome := by
  rw [kvGet_kvPut]
  rcases eq_or_ne k' k with he | he <;> simp [he, h]

/-- The multi-put `storage.put(updatedBalances)` (`scheduler.js:328-332`):
one `kvPut` per Map entry, entries listed in key insertion order. -/
def putAll (l : List String) (f : String → Int) (s : Kv Int) : Kv Int :=
  (l.map (fun t => (t, f t))).foldl (fun s2 p => kvPut s2 p.1 p.2) s

theorem kvGet_putAll (l : List String) (f : String → Int) (s : Kv Int)
    (k : String) :
    kvGet (putAll l f s) k = if k ∈ l then some (f k) else kvGet s k := by
  induction l generalizing s with
  | nil => simp [putAll]
  | cons t ts ih =>
    simp only [putAll, List.map_cons, List.foldl_cons]
    have := ih (kvPut s t (f t))
    simp only [putAll] at this
    rw [this]
    rcases eq_or_ne k t with he | he
    · subst he
      by_cases hmem : k ∈ ts <;> simp [hmem, kvGet_kvPut]
    · rw [kvGet_kvPut]
      by_cases hmem : k ∈ ts <;> simp [hmem, he, List.mem_cons]

/-! ## Per-token deduplication (`scheduler.js:271-279`)

The source iterates the batch, keeping a `Map` from token to bid; an
entry is overwritten only when the new bid is strictly larger
(`bid.bid > existingBid.bid`).  A JS `Map.set` on an existing key keeps
the key's original insertion position; a new key is appended. -/

/-- The choice the dedup loop makes between the existing entry `a` and a
new bid `b` for the same token (`scheduler.js:275`): the strictly larger
bid wins, a tie keeps the existing (earlier) entry. -/
def keepBid (a b : Bid) : Bid := if b.bid > a.bid then b else a

/-- One iteration of the dedup loop: replace the (first) entry with the
same token in place, or append a new entry. -/
def updateBid (acc : List Bid) (b : Bid) : List Bid :=
  match acc with
  | [] => [b]
  | e :: es =>
    if e.token = b.token then keepBid e b :: es
    else e :: updateBid es b

/-- `uniqueBidsMap` as its value list in insertion order
(`Array.from(uniqueBidsMap.values())`). -/
def uniqueBids (batch : List Bid) : List Bid := batch.foldl updateBid []

theorem keepBid_cases (a b : Bid) : keepBid a b = a ∨ keepBid a b = b := by
  unfold keepBid; split_ifs <;> simp

theorem keepBid_token {a b : Bid} (h : a.token = b.token) :
    (keepBid a b).token = b.token := by
  unfold keepBid; split_ifs <;> simp [h]

theorem mem_updateBid {acc : List Bid} {b x : Bid} (h : x ∈ updateBid acc b) :
    x ∈ acc ∨ x = b := by
  induction acc with
  | nil => simp [updateBid] at h; right; exact h
  | cons e es ih =>
    simp only [updateBid] at h
    by_cases he : e.token = b.token
    · rw [if_pos he] at h
      rcases List.mem_cons.mp h with h1 | h1
      · unfold keepBid at h1
        split_ifs at h1
        · right; exact h1
        · left; simp [h1]
      · left; exact List.mem_cons_of_mem _ h1
    · rw [if_neg he] at h
      rcases List.mem_cons.mp h with h1 | h1
      · left; simp [h1]
      · rcases ih h1 with h2 | h2
        · left; exact List.mem_cons_of_mem _ h2
        · right; exact h2

/-- The tokens after one dedup step: unchanged when the token is already
present, appended otherwise. -/
theorem updateBid_tokens (acc : List Bid) (b : Bid) :
    (updateBid acc b).map (·.token) =
      if b.token ∈ acc.map (·.token) then acc.map (·.token)
      else acc.map (·.token) ++ [b.token] := by
  induction acc with
  | nil => simp [updateBid]
  | cons e es ih =>
    simp only [updateBid, List.map_cons]
    by_cases he : e.token = b.token
    · have hmem : b.token ∈ e.token :: es.map (·.token) := by simp [he.symm]
      rw [if_pos he, if_pos hmem]
      simp [List.map_cons, keepBid_token he, he]
    · rw [if_neg he]
      simp only [List.map_cons, ih]
      by_cases hmem : b.token ∈ es.map (·.token)
      · have : b.token ∈ e.token :: es.map (·.token) := List.mem_cons_of_mem _ hmem
        simp [hmem, this]
      · have hne2 : ¬ b.token = e.token := fun h => he h.symm
        have : b.token ∉ e.token :: es.map (·.token) := by
          simp [List.mem_cons, hmem, hne2]
        simp [hmem, this]

theorem updateBid_tokens_nodup {acc : List Bid} (b : Bid)
    (h : (acc.map (·.token)).Nodup) : ((updateBid acc b).map (·.token)).Nodup := by
  rw [updateBid_tokens]
  by_cases hmem : b.token ∈ acc.map (·.token)
  · simp [hmem, h]
  · simp only [hmem, if_false]
    exact List.Nodup.append h (List.nodup_singleton _) (by simp [hmem])

theorem mem_updateBid_tokens (acc : List Bid) (b : Bid) (t : String) :
    t ∈ (updateBid acc b).map (·.token) ↔
      t ∈ acc.map (·.token) ∨ t = b.token := by
  rw [updateBid_tokens]
  by_cases hmem : b.token ∈ acc.map (·.token)
  · simp only [hmem, if_true]
    constructor
    · exact Or.inl
    · rintro (h | rfl)
      · exact h
      · exact hmem
  · simp [hmem]

theorem uniqueBids_tokens_nodup (batch : List Bid) :
    ((uniqueBids batch).map (·.token)).Nodup := by
  have key : ∀ (l : List Bid) (acc : List Bid), (acc.map (·.token)).Nodup →
      ((l.foldl updateBid acc).map (·.token)).Nodup := by
    intro l
    induction l with
    | nil => intro acc h; simpa using h
    | cons b bs ih =>
      intro acc h
      exact ih (updateBid acc b) (updateBid_tokens_nodup b h)
  exact key batch [] (by simp)

theorem mem_uniqueBids_tokens (batch : List Bid) (t : String) :
    t ∈ (uniqueBids batch).map (·.token) ↔ t ∈ batch.map (·.token) := by
  have key : ∀ (l : List Bid) (acc : List Bid),
      (t ∈ (l.foldl updateBid acc).map (·.token) ↔
        t ∈ acc.map (·.token) ∨ t ∈ l.map (·.token)) := by
    intro l
    induction l with
    | nil => intro acc; simp
    | cons b bs ih =>
      intro acc
      rw [List.foldl_cons, ih (updateBid acc b), mem_updateBid_tokens]
      simp [List.mem_cons, or_assoc, or_comm, or_left_comm]
  have := key batch []
  simpa using this

theorem mem_uniqueBids {batch : List Bid} {x : Bid} (h : x ∈ uniqueBids batch) :
    x ∈ batch := by
  have key : ∀ (l : List Bid) (acc : List Bid), x ∈ l.foldl updateBid acc →
      x ∈ acc ∨ x ∈ l := by
    intro l
    induction l with
    | nil => intro acc h2; exact Or.inl (by simpa using h2)
    | cons b bs ih =>
      intro acc h2
      rcases ih (updateBid acc b) h2 with h3 | h3
      · rcases mem_updateBid h3 with h4 | h4
        · exact Or.inl h4
        · exact Or.inr (by simp [h4])
      · exact Or.inr (List.mem_cons_of_mem _ h3)
  rcases key batch [] h with h2 | h2
  · simp at h2
  · exact h2

theorem uniqueBids_ne_nil {batch : List Bid} (h : batch ≠ []) :
    uniqueBids batch ≠ [] := by
  intro hnil
  rcases batch with _ | ⟨b, bs⟩
  · exact h rfl
  · have : b.token ∈ (uniqueBids (b :: bs)).map (·.token) :=
      (mem_uniqueBids_tokens _ _).mpr (by simp)
    rw [hnil] at this
    simp at this

/-! ## Stable descending sort (`scheduler.js:303`)

`uniqueBids.sort((a, b) => b.bid - a.bid)`: JS `Array.prototype.sort` is a
stable sort; with this comparator it orders by strictly decreasing bid and
keeps insertion order on ties. -/

instance : DecidableRel (fun (a b : Bid) => b.bid ≤ a.bid) :=
  fun a b => Int.decLe b.bid a.bid

instance : IsTotal Bid (fun a b => b.bid ≤ a.bid) :=
  ⟨fun a b => le_total b.bid a.bid⟩

instance : IsTrans Bid (fun a b => b.bid ≤ a.bid) :=
  ⟨fun _ _ _ h1 h2 => le_trans h2 h1⟩

/-- The stable descending sort of the unique bids. -/
def sortBids (l : List Bid) : List Bid :=
  l.insertionSort (fun a b => b.bid ≤ a.bid)

theorem sortBids_perm (l : List Bid) : (sortBids l).Perm l :=
  List.perm_insertionSort _ l

theorem sortBids_sorted (l : List Bid) :
    (sortBids l).Pairwise (fun a b => b.bid ≤ a.bid) :=
  List.sorted_insertionSort _ l

theorem mem_sortBids {l : List Bid} {x : Bid} (h : x ∈ sortBids l) : x ∈ l :=
  (sortBids_perm l).mem_iff.mp h

/-! ## Characterisation of the dedup loop -/

/-- One step of the single-token dedup: a first bid is kept, a later one
goes through `keepBid`. -/
def dedupStep (acc : Option Bid) (b : Bid) : Option Bid :=
  match acc with
  | none => some b
  | some a => some (keepBid a b)

/-- The dedup loop restricted to the admissions of a single token. -/
def dedupFor (acc : Option Bid) : List Bid → Option Bid
  | [] => acc
  | b :: bs => dedupFor (dedupStep acc b) bs

/-- One step of the first-maximum computation. -/
def firstMaxStep (b : Bid) (acc : Option Bid) : Option Bid :=
  match acc with
  | none => some b
  | some m => if m.bid > b.bid then some m else some b

/-- The first element of a list attaining the maximal bid: an element is
kept unless a strictly larger bid occurs later in the list. -/
def firstMaxBid : List Bid → Option Bid
  | [] => none
  | b :: bs => firstMaxStep b (firstMaxBid bs)

theorem dedupFor_some : ∀ (l : List Bid) (a : Bid),
    dedupFor (some a) l = firstMaxBid (a :: l)
  | [], _ => rfl
  | b :: bs, a => by
    rw [show dedupFor (some a) (b :: bs) = dedupFor (some (keepBid a b)) bs
        from rfl,
      dedupFor_some bs (keepBid a b),
      show firstMaxBid (keepBid a b :: bs)
        = firstMaxStep (keepBid a b) (firstMaxBid bs) from rfl,
      show firstMaxBid (a :: b :: bs)
        = firstMaxStep a (firstMaxStep b (firstMaxBid bs)) from rfl]
    rcases h : firstMaxBid bs with _ | m
    · rw [show firstMaxStep b none = some b from rfl,
        show firstMaxStep (keepBid a b) none = some (keepBid a b) from rfl,
        show firstMaxStep a (some b)
          = (if b.bid > a.bid then some b else some a) from rfl]
      unfold keepBid
      split_ifs <;> first | rfl | omega
    · rw [show firstMaxStep b (some m)
          = (if m.bid > b.bid then some m else some b) from rfl,
        show firstMaxStep (keepBid a b) (some m)
          = (if m.bid > (keepBid a b).bid then some m else some (keepBid a b))
          from rfl]
      by_cases c3 : m.bid > b.bid
      · rw [if_pos c3,
          show firstMaxStep a (some m)
            = (if m.bid > a.bid then some m else some a) from rfl]
        unfold keepBid
        split_ifs <;> first | rfl | omega
      · rw [if_neg c3,
          show firstMaxStep a (some b)
            = (if b.bid > a.bid then some b else some a) from rfl]
        unfold keepBid
        split_ifs <;> first | rfl | omega

theorem dedupFor_eq_firstMaxBid (l : List Bid) :
    dedupFor none l = firstMaxBid l := by
  cases l with
  | nil => rfl
  | cons b bs =>
    rw [show dedupFor none (b :: bs) = dedupFor (some b) bs from rfl,
      dedupFor_some]

theorem firstMaxBid_eq_none {l : List Bid} (h : firstMaxBid l = none) :
    l = [] := by
  cases l with
  | nil => rfl
  | cons b bs =>
    exfalso
    rw [show firstMaxBid (b :: bs) = firstMaxStep b (firstMaxBid bs) from rfl]
      at h
    rcases h2 : firstMaxBid bs with _ | m <;> rw [h2] at h
    · exact absurd h (by rw [show firstMaxStep b none = some b from rfl]; simp)
    · rw [show firstMaxStep b (some m)
          = (if m.bid > b.bid then some m else some b) from rfl] at h
      split_ifs at h <;> simp at h

theorem firstMaxBid_mem : ∀ {l : List Bid} {m : Bid},
    firstMaxBid l = some m → m ∈ l := by
  intro l
  induction l with
  | nil => intro m h; exact absurd h (by simp [firstMaxBid])
  | cons b bs ih =>
    intro m h
    rw [show firstMaxBid (b :: bs) = firstMaxStep b (firstMaxBid bs) from rfl]
      at h
    rcases h2 : firstMaxBid bs with _ | m' <;> rw [h2] at h
    · obtain rfl : b = m :=
        Option.some.inj (by rwa [show firstMaxStep b none = some b from rfl] at h)
      exact List.mem_cons_self b bs
    · rw [show firstMaxStep b (some m')
          = (if m'.bid > b.bid then some m' else some b) from rfl] at h
      split_ifs at h with hgt
      · obtain rfl : m' = m := Option.some.inj h
        exact List.mem_cons_of_mem _ (ih h2)
      · obtain rfl : b = m := Option.some.inj h
        exact List.mem_cons_self b bs

theorem firstMaxBid_max : ∀ {l : List Bid} {m : Bid},
    firstMaxBid l = some m → ∀ c ∈ l, c.bid ≤ m.bid := by
  intro l
  induction l with
  | nil => intro m h; exact absurd h (by simp [firstMaxBid])
  | cons b bs ih =>
    intro m h c hc
    rw [show firstMaxBid (b :: bs) = firstMaxStep b (firstMaxBid bs) from rfl]
      at h
    rcases h2 : firstMaxBid bs with _ | m' <;> rw [h2] at h
    · have hbs : bs = [] := firstMaxBid_eq_none h2
      subst hbs
      obtain rfl : b = m :=
        Option.some.inj (by rwa [show firstMaxStep b none = some b from rfl] at h)
      rcases List.mem_cons.mp hc with rfl | h3
      · omega
      · simp at h3
    · rw [show firstMaxStep b (some m')
          = (if m'.bid > b.bid then some m' else some b) from rfl] at h
      split_ifs at h with hgt
      · obtain rfl : m' = m := Option.some.inj h
        rcases List.mem_cons.mp hc with rfl | h3
        · omega
        · exact ih h2 c h3
      · obtain rfl : b = m := Option.some.inj h
        rcases List.mem_cons.mp hc with rfl | h3
        · omega
        · exact le_trans (ih h2 c h3) (by omega)

theorem find?_cons_tok (x : Bid) (xs : List Bid) (tok : String) :
    (x :: xs).find? (fun y => y.token == tok) =
      if x.token = tok then some x
      else xs.find? (fun y => y.token == tok) := by
  rcases eq_or_ne x.token tok with h | h
  · simp [List.find?, beq_iff_eq.mpr h, h]
  · simp [List.find?, beq_eq_false_iff_ne.mpr h, h]

theorem filter_cons_tok (x : Bid) (xs : List Bid) (tok : String) :
    (x :: xs).filter (fun y => y.token == tok) =
      if x.token = tok then x :: xs.filter (fun y => y.token == tok)
      else xs.filter (fun y => y.token == tok) := by
  rcases eq_or_ne x.token tok with h | h
  · simp [List.filter_cons, beq_iff_eq.mpr h, h]
  · simp [List.filter_cons, beq_eq_false_iff_ne.mpr h, h]

theorem find?_updateBid (acc : List Bid) (b : Bid) (tok : String) :
    (updateBid acc b).find? (fun x => x.token == tok) =
      if b.token = tok then
        dedupStep (acc.find? (fun x => x.token == tok)) b
      else acc.find? (fun x => x.token == tok) := by
  induction acc with
  | nil =>
    simp only [updateBid]
    rw [find?_cons_tok]
    by_cases hb : b.token = tok <;> simp [hb, List.find?_nil, dedupStep]
  | cons e es ih =>
    simp only [updateBid]
    by_cases he : e.token = b.token
    · rw [if_pos he, find?_cons_tok, find?_cons_tok, keepBid_token he]
      by_cases hb : b.token = tok
      · rw [if_pos hb, if_pos hb, if_pos (he.trans hb)]
        rfl
      · rw [if_neg hb, if_neg hb,
          if_neg (show ¬ e.token = tok from fun h => hb (he ▸ h))]
    · rw [if_neg he]
      simp only [find?_cons_tok, ih]
      by_cases hetok : e.token = tok
      · have hb : ¬ b.token = tok := fun h => he (hetok.trans h.symm)
        simp [hetok, hb]
      · simp [hetok]

theorem find?_uniqueBids_loop :
    ∀ (l : List Bid) (acc : List Bid) (tok : String),
    (l.foldl updateBid acc).find? (fun x => x.token == tok) =
      dedupFor (acc.find? (fun x => x.token == tok))
        (l.filter (fun x => x.token == tok))
  | [], acc, tok => rfl
  | b :: bs, acc, tok => by
    rw [List.foldl_cons, find?_uniqueBids_loop bs (updateBid acc b) tok,
      find?_updateBid, filter_cons_tok]
    by_cases hb : b.token = tok
    · rw [if_pos hb, if_pos hb]
      rfl
    · rw [if_neg hb, if_neg hb]

/-! ## Scheduler state

In-memory fields `batch`, `pendingRequests`, `processing`
(`scheduler.js:7-9`), the single one-shot storage alarm, and the three
storage namespaces.  The fields after `log` are history ("ghost") fields
that only record facts about the run: `ghostFirst` is the `Date.now()` of
the admission that found the batch empty (the time the alarm was armed
from), `settled` lists the batches consumed by completed settlements, and
`admitted` lists every bid ever pushed onto the batch. -/

/-- The record stored under a `message:` key (`scheduler.js:335-340`). -/
structure AcceptedMessage where
  message : String
  bidderToken : String
  bidderName : Option String
  timestamp : Nat
deriving DecidableEq, Repr

/-- The per-round statistics (`scheduler.js:347-351`). -/
structure Stats where
  winBid : Int
  sumBid : Int
  nBids : Nat
deriving DecidableEq, Repr

/-- The per-client settlement response payload (`scheduler.js:359-365`);
`accepted` renders `status: 'accepted' | 'rejected'`. -/
structure RoundResponse where
  message : String
  balance : Int
  name : Option String
  accepted : Bool
  stats : Stats
deriving DecidableEq, Repr

structure SchedState where
  batch : List Bid
  pending : List String
  processing : Bool
  alarm : Option Nat
  balances : Kv Int
  names : Kv String
  log : List AcceptedMessage
  ghostFirst : Option Nat
  settled : List (List Bid)
  admitted : List Bid
deriving DecidableEq, Repr

def initState : SchedState :=
  { batch := [], pending := [], processing := false, alarm := none,
    balances := [], names := [], log := [], ghostFirst := none,
    settled := [], admitted := [] }

/-! ## Settlement engine (`processBatch`, `scheduler.js:264-383`)

The storage contract promises atomic multi-key puts, so a storage
operation either happens entirely or throws; `processBatch` has no
`try`/`catch`, so a throw propagates to the caller with all in-memory
mutations made so far kept.  `Faults` selects which storage operation (if
any) throws. -/

structure Faults where
  failDeleteAlarm : Bool
  failGetBalances : Bool
  failGetNames : Bool
  failPutBalances : Bool
  failPutMessage : Bool
deriving DecidableEq, Repr

/-- No storage operation fails. -/
def noFaults : Faults := ⟨false, false, false, false, false⟩

/-- Result of one `processBatch` invocation.  `skipped` is the re-entry
guard (`if (this.processing) return`); `emptyBatchError` models the
`TypeError` of reading `uniqueBids[0].token` on an empty batch;
`missingBalance` models the `NaN` garbage the source would compute when a
unique bidder has no stored balance (unreachable for admitted batches);
`storageError` is a thrown storage operation; `ok` carries the new state
and the responses resolved for the parked requests, in parked order. -/
inductive PBResult
  | skipped (st : SchedState)
  | emptyBatchError (st : SchedState)
  | missingBalance (st : SchedState)
  | storageError (st : SchedState)
  | ok (st : SchedState) (resolved : List (String × Option RoundResponse))
deriving DecidableEq, Repr

/-- The scheduler state carried by any of the result variants. -/
def PBResult.state : PBResult → SchedState
  | .skipped st => st
  | .emptyBatchError st => st
  | .missingBalance st => st
  | .storageError st => st
  | .ok st _ => st

/-- The in-memory balances Map after the multi-get (`scheduler.js:292-300`),
as a function; it is only ever applied to tokens whose presence the
`missingBalance` check has established. -/
def loadedBal (st : SchedState) : String → Int :=
  fun t => (kvGet st.balances t).getD 0

/-- `uniqueBids[1]?.bid || 0` (`scheduler.js:305`); `|| 0` only maps a
falsy `0` to `0`, the identity on integers. -/
def secondOf (rest : List Bid) : Int := ((rest.head?).map (·.bid)).getD 0

/-- `uniqueBids.reduce((acc, bid) => acc + bid.bid, 0)` (`scheduler.js:306`). -/
def sumOf (l : List Bid) : Int := l.foldl (fun acc b => acc + b.bid) 0

/-- Deduct the second-highest bid from the highest bidder's balance and
zero-clamp (`scheduler.js:308-315`). -/
def clampWinner (bal0 : String → Int) (w : Bid) (second : Int) :
    String → Int :=
  Function.update bal0 w.token
    (if bal0 w.token - second < 0 then 0 else bal0 w.token - second)

/-- Accumulate balances for all unique non-winning bidders
(`scheduler.js:317-325`). -/
def accumulateLosers (cfg : Cfg) (w : Bid) (sorted : List Bid)
    (m0 : String → Int) : String → Int :=
  sorted.foldl
    (fun m b =>
      if b.token = w.token then m
      else Function.update m b.token (min cfg.max_bal (m b.token + cfg.accumulate)))
    m0

/-- The in-memory balances Map at the end of the settlement arithmetic,
for the sorted unique bids `w :: rest`. -/
def settledBalances (cfg : Cfg) (w : Bid) (rest : List Bid)
    (bal0 : String → Int) : String → Int :=
  accumulateLosers cfg w (w :: rest) (clampWinner bal0 w (secondOf rest))

/-- The `responses` object (`scheduler.js:354-366`): keyed by token, built
over the raw batch, so every admission of a token maps to the same
payload.  Tokens outside the batch have no entry (`undefined`). -/
def settleResponse (st : SchedState) (w : Bid) (balF : String → Int)
    (stats : Stats) (tok : String) : Option RoundResponse :=
  if st.batch.any (fun b => b.token == tok) then
    some { message := w.message, balance := balF tok,
           name := kvGet st.names tok, accepted := tok == w.token,
           stats := stats }
  else none

/-- The state produced by a successful settlement of the sorted unique
bids `w :: rest`: alarm cancelled, updated balances multi-put, message
appended, in-memory batch / parked list / processing flag reset
(`scheduler.js:269-381`). -/
def settleOk (cfg : Cfg) (st : SchedState) (now : Nat) (w : Bid)
    (rest : List Bid) : SchedState :=
  { st with
    processing := false, alarm := none,
    balances := putAll ((uniqueBids st.batch).map (·.token))
      (settledBalances cfg w rest (loadedBal st)) st.balances,
    log := st.log ++ [⟨w.message, w.token, kvGet st.names w.token, now⟩],
    batch := [], pending := [], ghostFirst := none,
    settled := st.settled ++ [st.batch] }

/-- The responses resolved for the parked requests, in parked order
(`scheduler.js:369-376`). -/
def settleResolved (cfg : Cfg) (st : SchedState) (w : Bid) (rest : List Bid) :
    List (String × Option RoundResponse) :=
  st.pending.map (fun tok =>
    (tok, settleResponse st w (settledBalances cfg w rest (loadedBal st))
      ⟨secondOf rest, sumOf (w :: rest), (uniqueBids st.batch).length⟩ tok))

/-- `processBatch` (`scheduler.js:264-383`) under the fault selection `f`.
Operation order: re-entry guard, `processing := true`, `deleteAlarm`,
dedup, multi-get of balances and names, sort, balance arithmetic,
multi-put of balances, put of the message, response construction,
resolution of parked requests, state reset. -/
def processBatchF (cfg : Cfg) (f : Faults) (st : SchedState) (now : Nat) :
    PBResult :=
  if st.processing then .skipped st
  else if f.failDeleteAlarm then .storageError { st with processing := true }
  else if f.failGetBalances || f.failGetNames then
    .storageError { st with processing := true, alarm := none }
  else if (uniqueBids st.batch).all (fun b => (kvGet st.balances b.token).isSome)
  then
    match sortBids (uniqueBids st.batch) with
    | [] => .emptyBatchError { st with processing := true, alarm := none }
    | w :: rest =>
      if f.failPutBalances then
        .storageError { st with processing := true, alarm := none }
      else if f.failPutMessage then
        .storageError { st with
          processing := true, alarm := none,
          balances := putAll ((uniqueBids st.batch).map (·.token))
            (settledBalances cfg w rest (loadedBal st)) st.balances }
      else .ok (settleOk cfg st now w rest) (settleResolved cfg st w rest)
  else .missingBalance { st with processing := true, alarm := none }

/-- `processBatch` with no storage faults: the success-path semantics. -/
def processBatch (cfg : Cfg) (st : SchedState) (now : Nat) : PBResult :=
  processBatchF cfg noFaults st now

/-! ## Bid intake (`handleSendMessage`, `scheduler.js:214-262`) -/

/-- What the caller of `POST /messages` gets back.  `badRequest` is a
synchronous 400; `parked` means the returned promise is pending until a
later settlement; `unexpectedError` means the admission triggered an
inline settlement which resolved `resolved`, after which the handler fell
through to `return new Response('Unexpected error', { status: 500 })`
(`scheduler.js:261`) — that 500 is the caller's own response;
`internalError` is a propagated exception (caught as a 500 by `fetch`). -/
inductive AdmitOutcome
  | badRequest
  | parked
  | unexpectedError (resolved : List (String × Option RoundResponse))
  | internalError
deriving DecidableEq, Repr

/-- `this.batch.push({ token, message, bid })` (`scheduler.js:242`), also
recording the admission in the ghost history. -/
def pushBid (st : SchedState) (b : Bid) : SchedState :=
  { st with batch := st.batch ++ [b], admitted := st.admitted ++ [b] }

/-- Arm the alarm at `now + TIMEOUT` iff this was the first bid of the
batch (`scheduler.js:244-247`); `ghostFirst` records `now`. -/
def armIfFirst (cfg : Cfg) (st : SchedState) (now : Nat) : SchedState :=
  if st.batch.length = 1
  then { st with alarm := some (now + cfg.timeout), ghostFirst := some now }
  else st

/-- Validated admission (`scheduler.js:241-258`): push the bid, arm the
alarm when the batch was empty, then either settle inline at the
threshold or park the caller's response. -/
def admitCore (cfg : Cfg) (st : SchedState) (now : Nat) (b : Bid) :
    SchedState × AdmitOutcome :=
  if cfg.N ≤ (armIfFirst cfg (pushBid st b) now).batch.length then
    match processBatchF cfg noFaults (armIfFirst cfg (pushBid st b) now) now with
    | .ok st3 resolved => (st3, .unexpectedError resolved)
    | r => (r.state, .internalError)
  else
    ({ armIfFirst cfg (pushBid st b) now with
       pending := (armIfFirst cfg (pushBid st b) now).pending ++ [b.token] },
     .parked)

/-- `handleSendMessage` (`scheduler.js:214-262`): the four validations
(`!message`, `bid <= 0` and non-number bids, unknown token, insufficient
balance) and then the admission. -/
def handleSendMessage (cfg : Cfg) (st : SchedState) (now : Nat)
    (token message : String) (bid : Int) : SchedState × AdmitOutcome :=
  if message = "" then (st, .badRequest)
  else if bid ≤ 0 then (st, .badRequest)
  else
    match kvGet st.balances token with
    | none => (st, .badRequest)
    | some clientBalance =>
      if clientBalance < bid then (st, .badRequest)
      else admitCore cfg st now ⟨token, message, bid⟩

/-! ## The other scheduler entry points -/

/-- `handleRegister` (`scheduler.js:75-96`): store the initial balance and
the name under the fresh token. -/
def handleRegister (cfg : Cfg) (st : SchedState) (token name : String) :
    SchedState :=
  { st with balances := kvPut st.balances token cfg.start,
            names := kvPut st.names token name }

/-- `handleDelete` (`scheduler.js:385-436`): cancel the alarm, wipe every
`balance:`, `name:` and `message:` key, reset the in-memory state.  The
ghost round-accounting fields are untouched (parked requests are dropped). -/
def handleDelete (st : SchedState) : SchedState :=
  { st with alarm := none, balances := [], names := [], log := [],
            batch := [], pending := [], processing := false,
            ghostFirst := none }

/-- The `alarm()` entry point (`scheduler.js:438-444`): the one-shot alarm
is consumed by firing; with a non-empty batch it runs `processBatch`
(whose own `deleteAlarm` is then a no-op). -/
def alarmFire (cfg : Cfg) (st : SchedState) (now : Nat) : SchedState :=
  match st.alarm with
  | none => st
  | some _ =>
    let st1 := { st with alarm := none }
    if 0 < st1.batch.length then (processBatchF cfg noFaults st1 now).state
    else st1

/-! ## The serialized actor: events and runs

All mutating operations run inside `state.blockConcurrencyWhile`, so a
run is a sequence of atomic events. -/

inductive Ev
  | register (token name : String)
  | send (now : Nat) (token message : String) (bid : Int)
  | alarm (now : Nat)
  | reset
deriving DecidableEq, Repr

def step (cfg : Cfg) (st : SchedState) : Ev → SchedState
  | .register tok name => handleRegister cfg st tok name
  | .send now tok msg bid => (handleSendMessage cfg st now tok msg bid).1
  | .alarm now => alarmFire cfg st now
  | .reset => handleDelete st

/-- The scheduler state after a sequence of events from a fresh object. -/
def run (cfg : Cfg) (evs : List Ev) : SchedState :=
  evs.foldl (step cfg) initState

/-! ## Evaluation of the settlement arithmetic -/

theorem accumulateLosers_cons (cfg : Cfg) (w b : Bid) (bs : List Bid)
    (m0 : String → Int) :
    accumulateLosers cfg w (b :: bs) m0 =
      accumulateLosers cfg w bs
        (if b.token = w.token then m0
         else Function.update m0 b.token
           (min cfg.max_bal (m0 b.token + cfg.accumulate))) := rfl

theorem accumulateLosers_eval_skip (cfg : Cfg) (w : Bid) (l : List Bid)
    (m0 : String → Int) (t : String)
    (ht : t = w.token ∨ t ∉ l.map (·.token)) :
    accumulateLosers cfg w l m0 t = m0 t := by
  induction l generalizing m0 with
  | nil => rfl
  | cons b bs ih =>
    rw [accumulateLosers_cons]
    have ht2 : t = w.token ∨ t ∉ bs.map (·.token) := by
      rcases ht with h | h
      · exact Or.inl h
      · exact Or.inr (fun h2 => h (by simp [List.mem_cons]; right; simpa using h2))
    rw [ih _ ht2]
    by_cases hb : b.token = w.token
    · rw [if_pos hb]
    · rw [if_neg hb]
      have htb : t ≠ b.token := by
        rcases ht with h | h
        · exact fun h2 => hb (h2.symm.trans h)
        · exact fun h2 => h (by simp [List.mem_cons, h2])
      rw [Function.update_noteq htb]

theorem accumulateLosers_eval_hit (cfg : Cfg) (w : Bid) (l : List Bid)
    (m0 : String → Int) (t : String) (hnd : (l.map (·.token)).Nodup)
    (ht : t ∈ l.map (·.token)) (hw : t ≠ w.token) :
    accumulateLosers cfg w l m0 t =
      min cfg.max_bal (m0 t + cfg.accumulate) := by
  induction l generalizing m0 with
  | nil => simp at ht
  | cons b bs ih =>
    rw [accumulateLosers_cons]
    have hnd1 : ((b :: bs).map (·.token)).Nodup := hnd
    rw [List.map_cons, List.nodup_cons] at hnd1
    obtain ⟨hbnotin, hnd2⟩ := hnd1
    simp only [List.map_cons, List.mem_cons] at ht
    rcases ht with rfl | ht
    · have hbw : ¬ b.token = w.token := hw
      rw [if_neg hbw,
        accumulateLosers_eval_skip cfg w bs _ _ (Or.inr hbnotin),
        Function.update_same]
    · by_cases hbw : b.token = w.token
      · rw [if_pos hbw]
        exact ih m0 hnd2 ht
      · rw [if_neg hbw]
        have htb : t ≠ b.token := fun he => hbnotin (he ▸ ht)
        rw [ih _ hnd2 ht, Function.update_noteq htb]

theorem settledBalances_winner (cfg : Cfg) (w : Bid) (rest : List Bid)
    (bal0 : String → Int) :
    settledBalances cfg w rest bal0 w.token =
      max 0 (bal0 w.token - secondOf rest) := by
  unfold settledBalances
  rw [accumulateLosers_eval_skip _ _ _ _ _ (Or.inl rfl), clampWinner,
    Function.update_same]
  split_ifs <;> omega

theorem settledBalances_loser (cfg : Cfg) (w : Bid) (rest : List Bid)
    (bal0 : String → Int) (t : String)
    (hnd : ((w :: rest).map (·.token)).Nodup)
    (ht : t ∈ rest.map (·.token)) (hw : t ≠ w.token) :
    settledBalances cfg w rest bal0 t =
      min cfg.max_bal (bal0 t + cfg.accumulate) := by
  unfold settledBalances
  have ht2 : t ∈ (w :: rest).map (·.token) := by
    simp only [List.map_cons, List.mem_cons]
    exact Or.inr ht
  rw [accumulateLosers_eval_hit _ _ _ _ _ hnd ht2 hw, clampWinner,
    Function.update_noteq hw]

theorem settledBalances_other (cfg : Cfg) (w : Bid) (rest : List Bid)
    (bal0 : String → Int) (t : String)
    (ht : t ∉ (w :: rest).map (·.token)) :
    settledBalances cfg w rest bal0 t = bal0 t := by
  unfold settledBalances
  have hw : t ≠ w.token := fun he => ht (by simp [List.mem_cons, he])
  rw [accumulateLosers_eval_skip _ _ _ _ _ (Or.inr ht), clampWinner,
    Function.update_noteq hw]

/-- When no storage operation fails, the re-entry guard passes, every
unique bidder has a stored balance and the batch is non-empty, the
settlement succeeds and produces exactly `settleOk` / `settleResolved`. -/
theorem processBatch_ok (cfg : Cfg) (st : SchedState) (now : Nat) (w : Bid)
    (rest : List Bid) (hpr : st.processing = false)
    (hpres : (uniqueBids st.batch).all
      (fun b => (kvGet st.balances b.token).isSome) = true)
    (hsort : sortBids (uniqueBids st.batch) = w :: rest) :
    processBatch cfg st now =
      .ok (settleOk cfg st now w rest) (settleResolved cfg st w rest) := by
  unfold processBatch processBatchF noFaults
  rw [hpr, hpres, hsort]
  simp

/-- The tokens of the sorted unique bids are exactly those of the unique
bids, without duplicates. -/
theorem sortBids_uniqueBids_tokens_nodup (batch : List Bid) :
    ((sortBids (uniqueBids batch)).map (·.token)).Nodup :=
  ((sortBids_perm (uniqueBids batch)).map (·.token)).nodup_iff.mpr
    (uniqueBids_tokens_nodup batch)

/-- C1.  Vickrey rule: a settlement of a non-empty batch succeeds, the
sorted unique bids `w :: rest` are a descending permutation of the
deduplicated bids (so `w` is the winner and the head of `rest`, when it
exists, carries the second-highest unique bid), and the winner's stored
balance becomes `max 0 (before - second-highest unique bid)` when there
are at least two unique bidders, while with exactly one unique bidder it
is unchanged (the winner pays 0). -/
theorem vickrey_settlement (cfg : Cfg) (st : SchedState) (now : Nat)
    (w : Bid) (rest : List Bid)
    (hpr : st.processing = false)
    (hpres : ∀ b ∈ st.batch, (kvGet st.balances b.token).isSome)
    (hnn : 0 ≤ (kvGet st.balances w.token).getD 0)
    (hsort : sortBids (uniqueBids st.batch) = w :: rest) :
    ∃ st2 rs, processBatch cfg st now = .ok st2 rs ∧
      (w :: rest).Pairwise (fun a b => b.bid ≤ a.bid) ∧
      (w :: rest).Perm (uniqueBids st.batch) ∧
      (∀ s srest, rest = s :: srest →
        kvGet st2.balances w.token =
          some (max 0 ((kvGet st.balances w.token).getD 0 - s.bid))) ∧
      (rest = [] → kvGet st2.balances w.token = kvGet st.balances w.token) := by
  have hpres2 : (uniqueBids st.batch).all
      (fun b => (kvGet st.balances b.token).isSome) = true :=
    List.all_eq_true.mpr (fun b hb => hpres b (mem_uniqueBids hb))
  refine ⟨settleOk cfg st now w rest, settleResolved cfg st w rest,
    processBatch_ok cfg st now w rest hpr hpres2 hsort, ?_, ?_, ?_, ?_⟩
  · have := sortBids_sorted (uniqueBids st.batch)
    rwa [hsort] at this
  · have := sortBids_perm (uniqueBids st.batch)
    rwa [hsort] at this
  · intro s srest hrest
    have hwmem : w.token ∈ (uniqueBids st.batch).map (·.token) := by
      have : w ∈ sortBids (uniqueBids st.batch) := by rw [hsort]; simp
      exact List.mem_map_of_mem _ (mem_sortBids this)
    have hput : kvGet (settleOk cfg st now w rest).balances w.token =
        some (settledBalances cfg w rest (loadedBal st) w.token) := by
      show kvGet (putAll _ _ _) w.token = _
      rw [kvGet_putAll]
      rw [if_pos hwmem]
    rw [hput, settledBalances_winner]
    subst hrest
    rfl
  · intro hrest
    have hwmem : w.token ∈ (uniqueBids st.batch).map (·.token) := by
      have : w ∈ sortBids (uniqueBids st.batch) := by rw [hsort]; simp
      exact List.mem_map_of_mem _ (mem_sortBids this)
    have hput : kvGet (settleOk cfg st now w rest).balances w.token =
        some (settledBalances cfg w rest (loadedBal st) w.token) := by
      show kvGet (putAll _ _ _) w.token = _
      rw [kvGet_putAll]
      rw [if_pos hwmem]
    rw [hput, settledBalances_winner]
    subst hrest
    have hsome : (kvGet st.balances w.token).isSome := by
      have hw : w ∈ uniqueBids st.batch := by
        have : w ∈ sortBids (uniqueBids st.batch) := by rw [hsort]; simp
        exact mem_sortBids this
      exact hpres w (mem_uniqueBids hw)
    obtain ⟨v, hv⟩ := Option.isSome_iff_exists.mp hsome
    rw [hv]
    have : loadedBal st w.token = v := by
      unfold loadedBal
      rw [hv]
      rfl
    rw [show secondOf [] = 0 from rfl, this]
    have hvnn : 0 ≤ v := by
      rw [hv] at hnn
      simpa using hnn
    congr 1
    omega

/-- A two-bidder state ready to settle: Alice bid 5 on "x", Bob bid 7 on
"y", both with balance 10 (spec scenario S2). -/
def stAB : SchedState :=
  { batch := [⟨"A", "x", 5⟩, ⟨"B", "y", 7⟩], pending := ["A", "B"],
    processing := false, alarm := some 5000,
    balances := [("A", 10), ("B", 10)],
    names := [("A", "Alice"), ("B", "Bob")], log := [],
    ghostFirst := some 0, settled := [],
    admitted := [⟨"A", "x", 5⟩, ⟨"B", "y", 7⟩] }

/-- Witness for C1 at scenario S2: Bob wins and pays 5. -/
theorem vickrey_settlement_witness :
    (stAB.processing = false ∧
      (∀ b ∈ stAB.batch, (kvGet stAB.balances b.token).isSome) ∧
      0 ≤ (kvGet stAB.balances (Bid.mk "B" "y" 7).token).getD 0 ∧
      sortBids (uniqueBids stAB.batch) = [⟨"B", "y", 7⟩, ⟨"A", "x", 5⟩]) ∧
    (∃ st2 rs, processBatch defCfg stAB 0 = .ok st2 rs ∧
      ([⟨"B", "y", 7⟩, ⟨"A", "x", 5⟩] : List Bid).Pairwise
        (fun a b => b.bid ≤ a.bid) ∧
      ([⟨"B", "y", 7⟩, ⟨"A", "x", 5⟩] : List Bid).Perm
        (uniqueBids stAB.batch) ∧
      (∀ s srest, [(⟨"A", "x", 5⟩ : Bid)] = s :: srest →
        kvGet st2.balances (Bid.mk "B" "y" 7).token =
          some (max 0 ((kvGet stAB.balances (Bid.mk "B" "y" 7).token).getD 0
            - s.bid))) ∧
      ([(⟨"A", "x", 5⟩ : Bid)] = [] →
        kvGet st2.balances (Bid.mk "B" "y" 7).token =
          kvGet stAB.balances (Bid.mk "B" "y" 7).token)) :=
  ⟨⟨by decide, by decide, by decide, by decide⟩,
    vickrey_settlement defCfg stAB 0 ⟨"B", "y", 7⟩ [⟨"A", "x", 5⟩]
      (by decide) (by decide) (by decide) (by decide)⟩

/-- C8.  Frame property of a settlement: it succeeds, it rewrites only the
balance keys of tokens appearing in the deduplicated bid set, it writes no
name keys, and the deduplicated token set is exactly the batch's token
set, so the balance of every token that placed no bid in the round is
unchanged. -/
theorem settlement_frame (cfg : Cfg) (st : SchedState) (now : Nat)
    (w : Bid) (rest : List Bid)
    (hpr : st.processing = false)
    (hpres : ∀ b ∈ st.batch, (kvGet st.balances b.token).isSome)
    (hsort : sortBids (uniqueBids st.batch) = w :: rest) :
    ∃ st2 rs, processBatch cfg st now = .ok st2 rs ∧
      (∀ tok, tok ∉ (uniqueBids st.batch).map (·.token) →
        kvGet st2.balances tok = kvGet st.balances tok) ∧
      st2.names = st.names ∧
      (∀ tok, tok ∈ (uniqueBids st.batch).map (·.token) ↔
        tok ∈ st.batch.map (·.token)) := by
  have hpres2 : (uniqueBids st.batch).all
      (fun b => (kvGet st.balances b.token).isSome) = true :=
    List.all_eq_true.mpr (fun b hb => hpres b (mem_uniqueBids hb))
  refine ⟨settleOk cfg st now w rest, settleResolved cfg st w rest,
    processBatch_ok cfg st now w rest hpr hpres2 hsort, ?_, rfl, ?_⟩
  · intro tok htok
    show kvGet (putAll _ _ _) tok = _
    rw [kvGet_putAll, if_neg htok]
  · intro tok
    exact mem_uniqueBids_tokens st.batch tok

/-! ## Structural invariants of reachable states -/

/-- The structural invariant of every quiescent scheduler state: every
batched bid is positive and from a registered token, the parked requests
are exactly the batch's admissions, the processing flag is down, the
batch is empty iff no alarm is armed, and a non-empty batch has its alarm
armed at the first admission's time plus the timeout. -/
def InvB (cfg : Cfg) (st : SchedState) : Prop :=
  (∀ b ∈ st.batch, 0 < b.bid ∧ (kvGet st.balances b.token).isSome) ∧
  st.pending = st.batch.map (·.token) ∧
  st.processing = false ∧
  (st.batch = [] ↔ st.alarm = none) ∧
  (st.batch ≠ [] → ∃ t0, st.ghostFirst = some t0 ∧
    st.alarm = some (t0 + cfg.timeout))

theorem invB_initState (cfg : Cfg) : InvB cfg initState := by
  refine ⟨?_, rfl, rfl, ?_, ?_⟩ <;> simp [initState]

/-- A ready non-empty batch with registered bidders settles successfully. -/
theorem processBatch_ok_of (cfg : Cfg) (st : SchedState) (now : Nat)
    (hpr : st.processing = false) (hne : st.batch ≠ [])
    (hpres : ∀ b ∈ st.batch, (kvGet st.balances b.token).isSome) :
    ∃ w rest, sortBids (uniqueBids st.batch) = w :: rest ∧
      processBatchF cfg noFaults st now =
        .ok (settleOk cfg st now w rest) (settleResolved cfg st w rest) := by
  have hune : uniqueBids st.batch ≠ [] := uniqueBids_ne_nil hne
  rcases hs : sortBids (uniqueBids st.batch) with _ | ⟨w, rest⟩
  · exfalso
    have hperm := sortBids_perm (uniqueBids st.batch)
    rw [hs] at hperm
    exact hune hperm.symm.eq_nil
  · exact ⟨w, rest, rfl, processBatch_ok cfg st now w rest hpr
      (List.all_eq_true.mpr fun b hb => hpres b (mem_uniqueBids hb)) hs⟩

theorem invB_settleOk (cfg : Cfg) (st : SchedState) (now : Nat) (w : Bid)
    (rest : List Bid) : InvB cfg (settleOk cfg st now w rest) := by
  refine ⟨?_, rfl, rfl, ?_, ?_⟩ <;> simp [settleOk]

theorem armIfFirst_batch (cfg : Cfg) (st : SchedState) (now : Nat) :
    (armIfFirst cfg st now).batch = st.batch := by
  unfold armIfFirst; split_ifs <;> rfl

theorem armIfFirst_pending (cfg : Cfg) (st : SchedState) (now : Nat) :
    (armIfFirst cfg st now).pending = st.pending := by
  unfold armIfFirst; split_ifs <;> rfl

theorem armIfFirst_processing (cfg : Cfg) (st : SchedState) (now : Nat) :
    (armIfFirst cfg st now).processing = st.processing := by
  unfold armIfFirst; split_ifs <;> rfl

theorem armIfFirst_balances (cfg : Cfg) (st : SchedState) (now : Nat) :
    (armIfFirst cfg st now).balances = st.balances := by
  unfold armIfFirst; split_ifs <;> rfl

theorem armIfFirst_settled (cfg : Cfg) (st : SchedState) (now : Nat) :
    (armIfFirst cfg st now).settled = st.settled := by
  unfold armIfFirst; split_ifs <;> rfl

theorem armIfFirst_admitted (cfg : Cfg) (st : SchedState) (now : Nat) :
    (armIfFirst cfg st now).admitted = st.admitted := by
  unfold armIfFirst; split_ifs <;> rfl

/-- The alarm after `armIfFirst` on a freshly pushed batch. -/
theorem armIfFirst_alarm_spec (cfg : Cfg) (st : SchedState) (now : Nat)
    (hfirst : st.batch ≠ [] → ∃ t0, st.ghostFirst = some t0 ∧
      st.alarm = some (t0 + cfg.timeout)) (b : Bid) :
    ∃ t0, (armIfFirst cfg (pushBid st b) now).ghostFirst = some t0 ∧
      (armIfFirst cfg (pushBid st b) now).alarm = some (t0 + cfg.timeout) := by
  unfold armIfFirst
  by_cases hlen : (pushBid st b).batch.length = 1
  · rw [if_pos hlen]
    exact ⟨now, rfl, rfl⟩
  · rw [if_neg hlen]
    have hemp : st.batch ≠ [] := by
      intro hbad
      apply hlen
      show (st.batch ++ [b]).length = 1
      rw [hbad]
      rfl
    obtain ⟨t0, h1, h2⟩ := hfirst hemp
    exact ⟨t0, h1, h2⟩

theorem invB_admitCore (cfg : Cfg) (st : SchedState) (now : Nat) (b : Bid)
    (h : InvB cfg st) (hbid : 0 < b.bid)
    (hsome : (kvGet st.balances b.token).isSome) :
    InvB cfg (admitCore cfg st now b).1 := by
  obtain ⟨hb, hpend, hproc, hcoup, hfirst⟩ := h
  have hbatch2 : (armIfFirst cfg (pushBid st b) now).batch = st.batch ++ [b] :=
    armIfFirst_batch cfg (pushBid st b) now
  have hb2 : ∀ x ∈ st.batch ++ [b],
      0 < x.bid ∧ (kvGet st.balances x.token).isSome := by
    intro x hx
    rcases List.mem_append.mp hx with hx | hx
    · exact hb x hx
    · obtain rfl : x = b := by simpa using hx
      exact ⟨hbid, hsome⟩
  unfold admitCore
  by_cases hth : cfg.N ≤ (armIfFirst cfg (pushBid st b) now).batch.length
  · rw [if_pos hth]
    have hpr2 : (armIfFirst cfg (pushBid st b) now).processing = false := by
      rw [armIfFirst_processing]; exact hproc
    have hne2 : (armIfFirst cfg (pushBid st b) now).batch ≠ [] := by
      rw [hbatch2]; simp
    have hpres2 : ∀ x ∈ (armIfFirst cfg (pushBid st b) now).batch,
        (kvGet (armIfFirst cfg (pushBid st b) now).balances x.token).isSome := by
      intro x hx
      rw [armIfFirst_balances]
      rw [hbatch2] at hx
      exact (hb2 x hx).2
    obtain ⟨w, rest, _, heq⟩ := processBatch_ok_of cfg _ now hpr2 hne2 hpres2
    rw [heq]
    exact invB_settleOk cfg _ now w rest
  · rw [if_neg hth]
    obtain ⟨t0, hg, ha⟩ := armIfFirst_alarm_spec cfg st now hfirst b
    refine ⟨?_, ?_, ?_, ?_, ?_⟩
    · intro x hx
      have hx2 : x ∈ st.batch ++ [b] := by simpa [hbatch2] using hx
      simpa [armIfFirst_balances, pushBid] using hb2 x hx2
    · show (armIfFirst cfg (pushBid st b) now).pending ++ [b.token] = _
      rw [armIfFirst_pending, hbatch2]
      show (pushBid st b).pending ++ [b.token] = _
      simp [pushBid, hpend]
    · show (armIfFirst cfg (pushBid st b) now).processing = false
      rw [armIfFirst_processing]
      exact hproc
    · refine ⟨fun hbad => ?_, fun hbad => ?_⟩
      · rw [show ({ armIfFirst cfg (pushBid st b) now with
            pending := (armIfFirst cfg (pushBid st b) now).pending ++ [b.token] }
            : SchedState).batch = (armIfFirst cfg (pushBid st b) now).batch
            from rfl, hbatch2] at hbad
        simp at hbad
      · rw [show ({ armIfFirst cfg (pushBid st b) now with
            pending := (armIfFirst cfg (pushBid st b) now).pending ++ [b.token] }
            : SchedState).alarm = (armIfFirst cfg (pushBid st b) now).alarm
            from rfl, ha] at hbad
        simp at hbad
    · intro _
      exact ⟨t0, hg, ha⟩

theorem invB_handleSendMessage (cfg : Cfg) (st : SchedState) (now : Nat)
    (tok msg : String) (bid : Int) (h : InvB cfg st) :
    InvB cfg (handleSendMessage cfg st now tok msg bid).1 := by
  unfold handleSendMessage
  by_cases h1 : msg = ""
  · rw [if_pos h1]; exact h
  · rw [if_neg h1]
    by_cases h2 : bid ≤ 0
    · rw [if_pos h2]; exact h
    · rw [if_neg h2]
      rcases hbal : kvGet st.balances tok with _ | cb
      · exact h
      · dsimp only
        by_cases h3 : cb < bid
        · rw [if_pos h3]; exact h
        · rw [if_neg h3]
          exact invB_admitCore cfg st now ⟨tok, msg, bid⟩ h
            (by show (0 : Int) < bid; omega)
            (by show (kvGet st.balances tok).isSome; rw [hbal]; rfl)

theorem invB_alarmFire (cfg : Cfg) (st : SchedState) (now : Nat)
    (h : InvB cfg st) : InvB cfg (alarmFire cfg st now) := by
  obtain ⟨hb, hpend, hproc, hcoup, hfirst⟩ := h
  unfold alarmFire
  rcases ha : st.alarm with _ | t
  · exact ⟨hb, hpend, hproc, hcoup, hfirst⟩
  · dsimp only
    have hne : st.batch ≠ [] := by
      intro hbad
      rw [hcoup.mp hbad] at ha
      cases ha
    have hlen : 0 < ({ st with alarm := none } : SchedState).batch.length := by
      show 0 < st.batch.length
      cases hb2 : st.batch with
      | nil => exact absurd hb2 hne
      | cons x xs => simp [hb2]
    rw [if_pos hlen]
    obtain ⟨w, rest, _, heq⟩ := processBatch_ok_of cfg { st with alarm := none }
      now hproc hne (fun x hx => (hb x hx).2)
    rw [heq]
    exact invB_settleOk cfg _ now w rest

theorem invB_handleRegister (cfg : Cfg) (st : SchedState) (tok name : String)
    (h : InvB cfg st) : InvB cfg (handleRegister cfg st tok name) := by
  obtain ⟨hb, hpend, hproc, hcoup, hfirst⟩ := h
  exact ⟨fun x hx => ⟨(hb x hx).1,
      kvGet_kvPut_isSome st.balances tok x.token cfg.start (hb x hx).2⟩,
    hpend, hproc, hcoup, hfirst⟩

theorem invB_handleDelete (cfg : Cfg) (st : SchedState) :
    InvB cfg (handleDelete st) := by
  refine ⟨?_, rfl, rfl, ?_, ?_⟩ <;> simp [handleDelete]

theorem invB_step (cfg : Cfg) (st : SchedState) (e : Ev) (h : InvB cfg st) :
    InvB cfg (step cfg st e) := by
  cases e with
  | register tok name => exact invB_handleRegister cfg st tok name h
  | send now tok msg bid =>
    exact invB_handleSendMessage cfg st now tok msg bid h
  | alarm now => exact invB_alarmFire cfg st now h
  | reset => exact invB_handleDelete cfg st

/-- Every reachable quiescent state satisfies the structural invariant. -/
theorem invB_run (cfg : Cfg) (evs : List Ev) : InvB cfg (run cfg evs) := by
  have key : ∀ (l : List Ev) (st : SchedState), InvB cfg st →
      InvB cfg (l.foldl (step cfg) st) := by
    intro l
    induction l with
    | nil => intro st h; exact h
    | cons e es ih => intro st h; exact ih _ (invB_step cfg st e h)
  exact key evs initState (invB_initState cfg)

/-! ## Alarm coupling (C6) -/

theorem admitCore_keeps_alarm (cfg : Cfg) (st : SchedState) (now : Nat)
    (b : Bid) (hproc : st.processing = false)
    (hpres : ∀ x ∈ st.batch, (kvGet st.balances x.token).isSome)
    (hsome : (kvGet st.balances b.token).isSome)
    (hne : st.batch ≠ [])
    (hres : (admitCore cfg st now b).1.batch ≠ []) :
    (admitCore cfg st now b).1.alarm = st.alarm := by
  unfold admitCore at hres ⊢
  by_cases hth : cfg.N ≤ (armIfFirst cfg (pushBid st b) now).batch.length
  · rw [if_pos hth] at hres ⊢
    have hpr2 : (armIfFirst cfg (pushBid st b) now).processing = false := by
      rw [armIfFirst_processing]; exact hproc
    have hne2 : (armIfFirst cfg (pushBid st b) now).batch ≠ [] := by
      rw [armIfFirst_batch]
      show st.batch ++ [b] ≠ []
      simp
    have hpres2 : ∀ x ∈ (armIfFirst cfg (pushBid st b) now).batch,
        (kvGet (armIfFirst cfg (pushBid st b) now).balances x.token).isSome := by
      intro x hx
      rw [armIfFirst_balances]
      rw [armIfFirst_batch] at hx
      rcases List.mem_append.mp hx with hx | hx
      · exact hpres x hx
      · obtain rfl : x = b := by simpa using hx
        exact hsome
    obtain ⟨w, rest, _, heq⟩ := processBatch_ok_of cfg _ now hpr2 hne2 hpres2
    rw [heq] at hres
    exact absurd rfl hres
  · rw [if_neg hth] at hres ⊢
    show (armIfFirst cfg (pushBid st b) now).alarm = st.alarm
    unfold armIfFirst
    have hlen : ¬ (pushBid st b).batch.length = 1 := by
      show ¬ (st.batch ++ [b]).length = 1
      intro hbad
      have hlen1 : st.batch.length + 1 = 1 := by simpa using hbad
      exact hne (List.length_eq_zero.mp (by omega))
    rw [if_neg hlen]
    rfl

theorem handleSendMessage_keeps_alarm (cfg : Cfg) (st : SchedState)
    (now : Nat) (tok msg : String) (bid : Int) (h : InvB cfg st)
    (hne : st.batch ≠ [])
    (hres : (handleSendMessage cfg st now tok msg bid).1.batch ≠ []) :
    (handleSendMessage cfg st now tok msg bid).1.alarm = st.alarm := by
  obtain ⟨hb, hpend, hproc, hcoup, hfirst⟩ := h
  unfold handleSendMessage at hres ⊢
  by_cases h1 : msg = ""
  · rw [if_pos h1]
  · rw [if_neg h1] at hres ⊢
    by_cases h2 : bid ≤ 0
    · rw [if_pos h2]
    · rw [if_neg h2] at hres ⊢
      rcases hbal : kvGet st.balances tok with _ | cb
      · rfl
      · rw [hbal] at hres
        dsimp only at hres ⊢
        by_cases h3 : cb < bid
        · rw [if_pos h3]
        · rw [if_neg h3] at hres ⊢
          exact admitCore_keeps_alarm cfg st now ⟨tok, msg, bid⟩ hproc
            (fun x hx => (hb x hx).2)
            (by show (kvGet st.balances tok).isSome; rw [hbal]; rfl)
            hne hres

/-- C6.  Alarm-batch coupling at every reachable quiescent state: the
batch is empty iff no alarm is armed; a non-empty batch has exactly the
one alarm armed at the first admission's time (recorded in `ghostFirst`)
plus TIMEOUT; and an admission into an already non-empty batch that does
not settle it leaves the armed alarm untouched. -/
theorem alarm_batch_coupling (cfg : Cfg) (evs : List Ev) :
    ((run cfg evs).batch = [] ↔ (run cfg evs).alarm = none) ∧
    ((run cfg evs).batch ≠ [] → ∃ t0, (run cfg evs).ghostFirst = some t0 ∧
      (run cfg evs).alarm = some (t0 + cfg.timeout)) ∧
    (∀ now tok msg bid, (run cfg evs).batch ≠ [] →
      (handleSendMessage cfg (run cfg evs) now tok msg bid).1.batch ≠ [] →
      (handleSendMessage cfg (run cfg evs) now tok msg bid).1.alarm =
        (run cfg evs).alarm) := by
  have h := invB_run cfg evs
  refine ⟨h.2.2.2.1, h.2.2.2.2, ?_⟩
  intro now tok msg bid hne hres
  exact handleSendMessage_keeps_alarm cfg (run cfg evs) now tok msg bid h
    hne hres

/-- A short run leaving one parked bid in the batch. -/
def evsW6 : List Ev := [.register "A" "a", .send 3 "A" "m" 2]

/-- Witness for C6: after one admission the batch is non-empty and the
alarm is armed at the admission time plus TIMEOUT. -/
theorem alarm_batch_coupling_witness :
    (run defCfg evsW6).batch ≠ [] ∧
    (∃ t0, (run defCfg evsW6).ghostFirst = some t0 ∧
      (run defCfg evsW6).alarm = some (t0 + defCfg.timeout)) :=
  ⟨by decide, (alarm_batch_coupling defCfg evsW6).2.1 (by decide)⟩

/-! ## Balance cap (C5) -/

/-- Every stored balance lies in `[0, MAX_BAL]`. -/
def Cap (cfg : Cfg) (st : SchedState) : Prop :=
  ∀ t v, kvGet st.balances t = some v → 0 ≤ v ∧ v ≤ cfg.max_bal

theorem cap_initState (cfg : Cfg) : Cap cfg initState := by
  intro t v hv
  exact Option.noConfusion hv

theorem loadedBal_bounds (cfg : Cfg) (st : SchedState) (t : String)
    (hcap : Cap cfg st) (hsome : (kvGet st.balances t).isSome) :
    0 ≤ loadedBal st t ∧ loadedBal st t ≤ cfg.max_bal := by
  obtain ⟨v, hv⟩ := Option.isSome_iff_exists.mp hsome
  have h := hcap t v hv
  unfold loadedBal
  rw [hv]
  exact h

theorem secondOf_nonneg_of (st : SchedState) (w : Bid) (rest : List Bid)
    (hsort : sortBids (uniqueBids st.batch) = w :: rest)
    (hbid : ∀ b ∈ st.batch, 0 < b.bid) : 0 ≤ secondOf rest := by
  cases rest with
  | nil => simp [secondOf]
  | cons s srest =>
    have hs : s ∈ sortBids (uniqueBids st.batch) := by rw [hsort]; simp
    have h := hbid s (mem_uniqueBids (mem_sortBids hs))
    show (0 : Int) ≤ s.bid
    omega

theorem cap_settleOk (cfg : Cfg) (st : SchedState) (now : Nat) (w : Bid)
    (rest : List Bid) (hcap : Cap cfg st)
    (hbid : ∀ b ∈ st.batch, 0 < b.bid)
    (hpres : ∀ b ∈ st.batch, (kvGet st.balances b.token).isSome)
    (hsort : sortBids (uniqueBids st.batch) = w :: rest)
    (hacc : 0 ≤ cfg.accumulate) (hmax : 0 ≤ cfg.max_bal) :
    Cap cfg (settleOk cfg st now w rest) := by
  intro t v hv
  rw [show (settleOk cfg st now w rest).balances = putAll
      ((uniqueBids st.batch).map (·.token))
      (settledBalances cfg w rest (loadedBal st)) st.balances from rfl,
    kvGet_putAll] at hv
  by_cases ht : t ∈ (uniqueBids st.batch).map (·.token)
  · rw [if_pos ht] at hv
    have hveq := Option.some.inj hv
    subst hveq
    obtain ⟨x, hx, hxt⟩ := List.mem_map.mp ht
    have hxsome := hpres x (mem_uniqueBids hx)
    have hb0 := loadedBal_bounds cfg st x.token hcap hxsome
    rw [hxt] at hb0
    have hnd : ((w :: rest).map (·.token)).Nodup := by
      have h := sortBids_uniqueBids_tokens_nodup st.batch
      rwa [hsort] at h
    have htsorted : t ∈ (w :: rest).map (·.token) := by
      have hp := ((sortBids_perm (uniqueBids st.batch)).map
        (·.token)).mem_iff.mpr ht
      rwa [hsort] at hp
    have hsec := secondOf_nonneg_of st w rest hsort hbid
    rw [List.map_cons] at htsorted
    rcases List.mem_cons.mp htsorted with hteq | htrest
    · subst hteq
      rw [settledBalances_winner]
      refine ⟨le_max_left 0 _, max_le hmax (by omega)⟩
    · have hnw : t ≠ w.token := by
        intro hbad
        have hmem : w.token ∈ rest.map (·.token) := hbad ▸ htrest
        have hnd2 : w.token ∉ rest.map (·.token) := by
          rw [List.map_cons, List.nodup_cons] at hnd
          exact hnd.1
        exact hnd2 hmem
      rw [settledBalances_loser cfg w rest (loadedBal st) t hnd htrest hnw]
      refine ⟨le_min hmax (by omega), min_le_left _ _⟩
  · rw [if_neg ht] at hv
    exact hcap t v hv

theorem cap_step (cfg : Cfg) (st : SchedState) (e : Ev)
    (hinv : InvB cfg st) (hcap : Cap cfg st)
    (h1 : 0 ≤ cfg.start) (h2 : cfg.start ≤ cfg.max_bal)
    (h3 : 0 ≤ cfg.accumulate) : Cap cfg (step cfg st e) := by
  obtain ⟨hb, hpend, hproc, hcoup, hfirst⟩ := hinv
  have hmax : 0 ≤ cfg.max_bal := le_trans h1 h2
  cases e with
  | register tok name =>
    intro t v hv
    rw [show (step cfg st (.register tok name)).balances =
        kvPut st.balances tok cfg.start from rfl, kvGet_kvPut] at hv
    by_cases hteq : t = tok
    · rw [if_pos hteq] at hv
      have hveq := Option.some.inj hv
      subst hveq
      exact ⟨h1, h2⟩
    · rw [if_neg hteq] at hv
      exact hcap t v hv
  | send now tok msg bid =>
    show Cap cfg (handleSendMessage cfg st now tok msg bid).1
    unfold handleSendMessage
    by_cases hm : msg = ""
    · rw [if_pos hm]; exact hcap
    · rw [if_neg hm]
      by_cases hb2 : bid ≤ 0
      · rw [if_pos hb2]; exact hcap
      · rw [if_neg hb2]
        rcases hbal : kvGet st.balances tok with _ | cb
        · exact hcap
        · dsimp only
          by_cases h3b : cb < bid
          · rw [if_pos h3b]; exact hcap
          · rw [if_neg h3b]
            unfold admitCore
            by_cases hth : cfg.N ≤
                (armIfFirst cfg (pushBid st ⟨tok, msg, bid⟩) now).batch.length
            · rw [if_pos hth]
              have hpr2 : (armIfFirst cfg (pushBid st ⟨tok, msg, bid⟩)
                  now).processing = false := by
                rw [armIfFirst_processing]; exact hproc
              have hne2 : (armIfFirst cfg (pushBid st ⟨tok, msg, bid⟩)
                  now).batch ≠ [] := by
                rw [armIfFirst_batch]
                show st.batch ++ [⟨tok, msg, bid⟩] ≠ []
                simp
              have hbatchmem : ∀ x, x ∈ (armIfFirst cfg
                  (pushBid st ⟨tok, msg, bid⟩) now).batch →
                  x ∈ st.batch ∨ x = ⟨tok, msg, bid⟩ := by
                intro x hx
                rw [armIfFirst_batch] at hx
                rcases List.mem_append.mp hx with hx | hx
                · exact Or.inl hx
                · exact Or.inr (by simpa using hx)
              have hbal2 : (armIfFirst cfg (pushBid st ⟨tok, msg, bid⟩)
                  now).balances = st.balances := by
                rw [armIfFirst_balances]
                rfl
              have hpres2 : ∀ x ∈ (armIfFirst cfg (pushBid st ⟨tok, msg, bid⟩)
                  now).batch, (kvGet (armIfFirst cfg
                  (pushBid st ⟨tok, msg, bid⟩) now).balances x.token).isSome := by
                intro x hx
                rw [hbal2]
                rcases hbatchmem x hx with hx2 | hx2
                · exact (hb x hx2).2
                · subst hx2
                  show (kvGet st.balances tok).isSome
                  rw [hbal]
                  rfl
              obtain ⟨w, rest, hsort2, heq⟩ := processBatch_ok_of cfg _ now
                hpr2 hne2 hpres2
              rw [heq]
              refine cap_settleOk cfg _ now w rest ?_ ?_ ?_ hsort2 h3 hmax
              · intro t v hv
                rw [hbal2] at hv
                exact hcap t v hv
              · intro x hx
                rcases hbatchmem x hx with hx2 | hx2
                · exact (hb x hx2).1
                · subst hx2
                  show (0 : Int) < bid
                  omega
              · exact hpres2
            · rw [if_neg hth]
              intro t v hv
              refine hcap t v ?_
              rw [show ({ armIfFirst cfg (pushBid st ⟨tok, msg, bid⟩) now with
                pending := (armIfFirst cfg (pushBid st ⟨tok, msg, bid⟩)
                  now).pending ++ [(⟨tok, msg, bid⟩ : Bid).token] }
                : SchedState).balances = (armIfFirst cfg
                  (pushBid st ⟨tok, msg, bid⟩) now).balances from rfl,
                armIfFirst_balances] at hv
              exact hv
  | alarm now =>
    show Cap cfg (alarmFire cfg st now)
    unfold alarmFire
    rcases ha : st.alarm with _ | tm
    · exact hcap
    · dsimp only
      by_cases hlen : 0 < ({ st with alarm := none } : SchedState).batch.length
      · rw [if_pos hlen]
        have hne : st.batch ≠ [] := by
          intro hbad
          have hlen2 : 0 < st.batch.length := hlen
          rw [hbad] at hlen2
          simp at hlen2
        obtain ⟨w, rest, hsort2, heq⟩ := processBatch_ok_of cfg
          { st with alarm := none } now hproc hne (fun x hx => (hb x hx).2)
        rw [heq]
        exact cap_settleOk cfg _ now w rest (fun t v hv => hcap t v hv)
          (fun x hx => (hb x hx).1) (fun x hx => (hb x hx).2) hsort2 h3 hmax
      · rw [if_neg hlen]
        exact hcap
  | reset =>
    intro t v hv
    exact Option.noConfusion hv

/-- C5.  Balance cap invariant: with a sane configuration
(`0 ≤ START_BAL ≤ MAX_BAL`, `0 ≤ ACCUMULATE_BAL`, as the defaults are),
every stored balance at every reachable quiescent state — across
registration, settlement (winner clamped below at 0, losers clamped above
at `MAX_BAL`) and admin reset — lies in `[0, MAX_BAL]`. -/
theorem balance_cap_invariant (cfg : Cfg) (evs : List Ev)
    (h1 : 0 ≤ cfg.start) (h2 : cfg.start ≤ cfg.max_bal)
    (h3 : 0 ≤ cfg.accumulate) :
    ∀ t v, kvGet (run cfg evs).balances t = some v →
      0 ≤ v ∧ v ≤ cfg.max_bal := by
  have key : ∀ (l : List Ev) (st : SchedState), InvB cfg st → Cap cfg st →
      Cap cfg (l.foldl (step cfg) st) := by
    intro l
    induction l with
    | nil => intro st _ hc; exact hc
    | cons e es ih =>
      intro st hi hc
      exact ih _ (invB_step cfg st e hi) (cap_step cfg st e hi hc h1 h2 h3)
  exact key evs initState (invB_initState cfg) (cap_initState cfg)

/-- A run in which a settlement already happened: two bidders, then the
alarm fires (scenario S2). -/
def evsW5 : List Ev :=
  [.register "A" "a", .register "B" "b",
   .send 0 "A" "x" 5, .send 1 "B" "y" 7, .alarm 5000]

/-- Witness for C5 at scenario S2 under the default configuration: Bob's
post-settlement balance 5 is within `[0, MAX_BAL]`. -/
theorem balance_cap_invariant_witness :
    (0 ≤ defCfg.start ∧ defCfg.start ≤ defCfg.max_bal ∧
      0 ≤ defCfg.accumulate) ∧
    (0 ≤ (5 : Int) ∧ (5 : Int) ≤ defCfg.max_bal) :=
  ⟨⟨by decide, by decide, by decide⟩,
    balance_cap_invariant defCfg evsW5 (by decide) (by decide) (by decide)
      "B" 5 (by decide)⟩

/-! ## Exactly-once settlement (C7) -/

/-- Round accounting: every admitted bid is in exactly one settled round
or still in the current batch. -/
def Partition (st : SchedState) : Prop :=
  st.settled.flatten ++ st.batch = st.admitted

theorem processBatchF_ghost (cfg : Cfg) (f : Faults) (st : SchedState)
    (now : Nat) :
    (processBatchF cfg f st now).state.settled.flatten ++
      (processBatchF cfg f st now).state.batch =
      st.settled.flatten ++ st.batch ∧
    (processBatchF cfg f st now).state.admitted = st.admitted := by
  unfold processBatchF
  by_cases hp : st.processing
  · rw [if_pos hp]; exact ⟨rfl, rfl⟩
  · rw [if_neg hp]
    by_cases hf1 : f.failDeleteAlarm = true
    · simp only [hf1, if_true]; exact ⟨rfl, rfl⟩
    · simp only [hf1, Bool.false_eq_true, if_false]
      by_cases hf2 : (f.failGetBalances || f.failGetNames) = true
      · simp only [hf2, if_true]; exact ⟨rfl, rfl⟩
      · simp only [hf2, Bool.false_eq_true, if_false]
        by_cases hall : (uniqueBids st.batch).all
            (fun b => (kvGet st.balances b.token).isSome) = true
        · simp only [hall, if_true]
          rcases hs : sortBids (uniqueBids st.batch) with _ | ⟨w, rest⟩
          · exact ⟨rfl, rfl⟩
          · by_cases hf4 : f.failPutBalances = true
            · simp only [hf4, if_true]; exact ⟨rfl, rfl⟩
            · simp only [hf4, Bool.false_eq_true, if_false]
              by_cases hf5 : f.failPutMessage = true
              · simp only [hf5, if_true]; exact ⟨rfl, rfl⟩
              · simp only [hf5, Bool.false_eq_true, if_false]
                constructor
                · show (st.settled ++ [st.batch]).flatten ++ [] =
                    st.settled.flatten ++ st.batch
                  simp
                · rfl
        · simp only [hall, Bool.false_eq_true, if_false]
          exact ⟨rfl, rfl⟩

/-- At the threshold, the admission's resulting state is the settlement
result's state, whether it succeeded or propagated an error. -/
theorem admitCore_threshold_state (cfg : Cfg) (st : SchedState) (now : Nat)
    (b : Bid)
    (hth : cfg.N ≤ (armIfFirst cfg (pushBid st b) now).batch.length) :
    (admitCore cfg st now b).1 =
      (processBatchF cfg noFaults (armIfFirst cfg (pushBid st b) now)
        now).state := by
  unfold admitCore
  rw [if_pos hth]
  rcases processBatchF cfg noFaults (armIfFirst cfg (pushBid st b) now) now
    with s | s | s | s | ⟨s, r⟩ <;> rfl

theorem partition_admitCore (cfg : Cfg) (st : SchedState) (now : Nat)
    (b : Bid) (h : Partition st) : Partition (admitCore cfg st now b).1 := by
  have hpush : Partition (armIfFirst cfg (pushBid st b) now) := by
    show (armIfFirst cfg (pushBid st b) now).settled.flatten ++
      (armIfFirst cfg (pushBid st b) now).batch =
      (armIfFirst cfg (pushBid st b) now).admitted
    rw [armIfFirst_settled, armIfFirst_batch, armIfFirst_admitted]
    show st.settled.flatten ++ (st.batch ++ [b]) = st.admitted ++ [b]
    rw [← List.append_assoc, h]
  by_cases hth : cfg.N ≤ (armIfFirst cfg (pushBid st b) now).batch.length
  · rw [show Partition (admitCore cfg st now b).1 =
        Partition (processBatchF cfg noFaults
          (armIfFirst cfg (pushBid st b) now) now).state from
      congrArg Partition (admitCore_threshold_state cfg st now b hth)]
    have hg := processBatchF_ghost cfg noFaults
      (armIfFirst cfg (pushBid st b) now) now
    unfold Partition
    rw [hg.1, hg.2]
    exact hpush
  · unfold admitCore
    rw [if_neg hth]
    show (armIfFirst cfg (pushBid st b) now).settled.flatten ++
      (armIfFirst cfg (pushBid st b) now).batch =
      (armIfFirst cfg (pushBid st b) now).admitted
    exact hpush

theorem partition_step (cfg : Cfg) (st : SchedState) (e : Ev)
    (hne : e ≠ Ev.reset) (h : Partition st) : Partition (step cfg st e) := by
  cases e with
  | register tok name => exact h
  | send now tok msg bid =>
    show Partition (handleSendMessage cfg st now tok msg bid).1
    unfold handleSendMessage
    by_cases h1 : msg = ""
    · rw [if_pos h1]; exact h
    · rw [if_neg h1]
      by_cases h2 : bid ≤ 0
      · rw [if_pos h2]; exact h
      · rw [if_neg h2]
        rcases hbal : kvGet st.balances tok with _ | cb
        · exact h
        · dsimp only
          by_cases h3 : cb < bid
          · rw [if_pos h3]; exact h
          · rw [if_neg h3]
            exact partition_admitCore cfg st now ⟨tok, msg, bid⟩ h
  | alarm now =>
    show Partition (alarmFire cfg st now)
    unfold alarmFire
    rcases ha : st.alarm with _ | tm
    · exact h
    · dsimp only
      by_cases hlen : 0 < ({ st with alarm := none } : SchedState).batch.length
      · rw [if_pos hlen]
        have hg := processBatchF_ghost cfg noFaults { st with alarm := none }
          now
        unfold Partition
        rw [hg.1, hg.2]
        exact h
      · rw [if_neg hlen]
        exact h
  | reset => exact absurd rfl hne

/-- C7.  Exactly-once settlement: along any interleaving of
registrations, admissions and alarm firings (no admin reset), the settled
rounds and the current batch partition the admitted bids — every admitted
bid is consumed by exactly one settlement, none twice — and a non-empty
batch always has its alarm armed, so it cannot be left permanently
unsettled once the armed alarm fires. -/
theorem settlement_exactly_once (cfg : Cfg) (evs : List Ev)
    (hnr : Ev.reset ∉ evs) :
    ((run cfg evs).settled.flatten ++ (run cfg evs).batch =
      (run cfg evs).admitted) ∧
    ((run cfg evs).batch ≠ [] → (run cfg evs).alarm ≠ none) := by
  constructor
  · have key : ∀ (l : List Ev) (st : SchedState), (∀ e ∈ l, e ≠ Ev.reset) →
        Partition st → Partition (l.foldl (step cfg) st) := by
      intro l
      induction l with
      | nil => intro st _ h; exact h
      | cons e es ih =>
        intro st hl h
        exact ih _ (fun x hx => hl x (List.mem_cons_of_mem _ hx))
          (partition_step cfg st e (hl e (List.mem_cons_self _ _)) h)
    exact key evs initState (fun e he heq => hnr (heq ▸ he)) rfl
  · intro hne hal
    obtain ⟨_, _, _, hcoup, _⟩ := invB_run cfg evs
    exact hne (hcoup.mpr hal)

/-- A reset-free run with one completed settlement and one new admission. -/
def evsW7 : List Ev :=
  [.register "A" "a", .register "B" "b",
   .send 0 "A" "x" 5, .send 1 "B" "y" 7, .alarm 5000,
   .send 6000 "A" "z" 2]

/-- Witness for C7: after a settled round plus a fresh admission the
settled rounds and the batch partition the admitted bids. -/
theorem settlement_exactly_once_witness :
    Ev.reset ∉ evsW7 ∧
    (run defCfg evsW7).settled.flatten ++ (run defCfg evsW7).batch =
      (run defCfg evsW7).admitted :=
  ⟨by decide, (settlement_exactly_once defCfg evsW7 (by decide)).1⟩

/-- Witness for C8 at scenario S2: a token that did not bid keeps its
balance, and the name map is untouched. -/
theorem settlement_frame_witness :
    (stAB.processing = false ∧
      (∀ b ∈ stAB.batch, (kvGet stAB.balances b.token).isSome) ∧
      sortBids (uniqueBids stAB.batch) = [⟨"B", "y", 7⟩, ⟨"A", "x", 5⟩]) ∧
    (∃ st2 rs, processBatch defCfg stAB 0 = .ok st2 rs ∧
      (∀ tok, tok ∉ (uniqueBids stAB.batch).map (·.token) →
        kvGet st2.balances tok = kvGet stAB.balances tok) ∧
      st2.names = stAB.names ∧
      (∀ tok, tok ∈ (uniqueBids stAB.batch).map (·.token) ↔
        tok ∈ stAB.batch.map (·.token))) :=
  ⟨⟨by decide, by decide, by decide⟩,
    settlement_frame defCfg stAB 0 ⟨"B", "y", 7⟩ [⟨"A", "x", 5⟩]
      (by decide) (by decide) (by decide)⟩

/-! ## Dedup tiebreak (C3) -/

/-- C3 (amended).  Per-token deduplication keeps, for every token, the
admission with the largest bid, and on equal amounts the EARLIEST
admission (the source's strict `>` means the existing entry wins a tie):
the kept entry is exactly the first admission of that token attaining
its maximal bid, and it dominates every admission of that token. -/
theorem dedup_keeps_first_max (batch : List Bid) (tok : String) :
    (uniqueBids batch).find? (fun x => x.token == tok) =
      firstMaxBid (batch.filter (fun x => x.token == tok)) ∧
    (∀ b, (uniqueBids batch).find? (fun x => x.token == tok) = some b →
      b ∈ batch ∧ b.token = tok ∧
      ∀ c ∈ batch, c.token = tok → c.bid ≤ b.bid) := by
  have heq : (uniqueBids batch).find? (fun x => x.token == tok) =
      firstMaxBid (batch.filter (fun x => x.token == tok)) := by
    unfold uniqueBids
    rw [find?_uniqueBids_loop batch [] tok]
    exact dedupFor_eq_firstMaxBid _
  refine ⟨heq, ?_⟩
  intro b hb
  rw [heq] at hb
  have hmem := firstMaxBid_mem hb
  have hmax := firstMaxBid_max hb
  have hmem2 := List.mem_filter.mp hmem
  refine ⟨hmem2.1, beq_iff_eq.mp hmem2.2, ?_⟩
  intro c hc hct
  exact hmax c (List.mem_filter.mpr ⟨hc, beq_iff_eq.mpr hct⟩)

/-- Two admissions from token "T" with equal bid amounts. -/
def bidT1 : Bid := ⟨"T", "first", 5⟩

def bidT2 : Bid := ⟨"T", "second", 5⟩

/-- C3 counterexample: on two equal-amount admissions from the same
token, the dedup keeps the EARLIER admission (message "first"), not the
latest — "ties: last one wins" is false on the code. -/
theorem dedup_tie_counterexample :
    uniqueBids [bidT1, bidT2] = [bidT1] ∧
    bidT1.message = "first" ∧ bidT2.message = "second" ∧ bidT1 ≠ bidT2 := by
  decide

/-- Witness for C3 (amended) at the tie input: the kept entry is the
first maximum. -/
theorem dedup_keeps_first_max_witness :
    (uniqueBids [bidT1, bidT2]).find? (fun x => x.token == "T") =
      firstMaxBid ([bidT1, bidT2].filter (fun x => x.token == "T")) :=
  (dedup_keeps_first_max [bidT1, bidT2] "T").1

/-! ## Threshold-path response fan-out (C2) -/

/-- The responses a completed inline settlement resolved, when the
admission outcome is the fall-through `'Unexpected error'` 500. -/
def resolvedOf : AdmitOutcome → Option (List (String × Option RoundResponse))
  | .unexpectedError rs => some rs
  | _ => none

/-- Scenario S4 prefix: five registered clients, four admissions parked. -/
def evsC2 : List Ev :=
  [.register "A" "a", .register "B" "b", .register "C" "c",
   .register "D" "d", .register "E" "e",
   .send 0 "A" "m1" 1, .send 1 "B" "m2" 2, .send 2 "C" "m3" 3,
   .send 3 "D" "m4" 4]

/-- C2 (code bug, scenario S4 with `N = 5`).  The fifth admission settles
the round inline, but the triggering caller never parked a request;
`processBatch` resolves only the four parked responses (tokens A-D) and
the fifth caller's own handler falls through to the
`'Unexpected error'` 500 (`scheduler.js:260-261`, "This point should not
be reached") — so a 5-admission round resolves only 4 settlement
responses, and the triggering caller does not receive the settlement
payload. -/
theorem threshold_caller_gets_unexpected_error :
    (run defCfg evsC2).batch.length = 4 ∧
    (run defCfg evsC2).pending.length = 4 ∧
    (resolvedOf (handleSendMessage defCfg (run defCfg evsC2) 4 "E" "m5"
        5).2).map (fun rs => rs.map Prod.fst) = some ["A", "B", "C", "D"] ∧
    (resolvedOf (handleSendMessage defCfg (run defCfg evsC2) 4 "E" "m5"
        5).2).map List.length = some 4 ∧
    (handleSendMessage defCfg (run defCfg evsC2) 4 "E" "m5" 5).1.batch
      = [] ∧
    (handleSendMessage defCfg (run defCfg evsC2) 4 "E" "m5"
        5).1.admitted.length = 5 := by
  decide

/-! ## Settlement failure semantics (C4) -/

def PBResult.isOk : PBResult → Bool
  | .ok _ _ => true
  | _ => false

def PBResult.isStorageError : PBResult → Bool
  | .storageError _ => true
  | _ => false

/-- The balances multi-put throws. -/
def faultPutBalances : Faults := ⟨false, false, false, true, false⟩

/-- `deleteAlarm` throws. -/
def faultDeleteAlarm : Faults := ⟨true, false, false, false, false⟩

/-- C4 counterexample: with the balances multi-put throwing,
`processBatch` (which has no `try`/`catch`) aborts leaving the batch and
parked list intact, no response resolved, and the processing flag stuck
at `true` — every later `processBatch` call returns immediately: the
scheduler IS left wedged, refuting "parked requests are resolved with
InternalError and the batch, parked list, and processing flag are
cleared". -/
theorem settlement_fault_counterexample :
    (processBatchF defCfg faultPutBalances stAB 0).isStorageError = true ∧
    (processBatchF defCfg faultPutBalances stAB 0).isOk = false ∧
    (processBatchF defCfg faultPutBalances stAB 0).state.batch
      = stAB.batch ∧
    stAB.batch ≠ [] ∧
    (processBatchF defCfg faultPutBalances stAB 0).state.pending
      = ["A", "B"] ∧
    (processBatchF defCfg faultPutBalances stAB 0).state.processing
      = true ∧
    (processBatchF defCfg faultPutBalances stAB 0).state.log = stAB.log ∧
    processBatchF defCfg noFaults
        (processBatchF defCfg faultPutBalances stAB 0).state 1 =
      .skipped (processBatchF defCfg faultPutBalances stAB 0).state := by
  decide

/-- C4 (amended).  When any storage operation of a settlement throws, the
settlement aborts as a storage error before the message append: the log
gains no entry from the aborted path's later operations, no parked
request is resolved, and the batch, parked list and processing flag are
left intact with `processing = true`, after which every further
`processBatch` invocation (with any fault pattern) is skipped — the
scheduler is wedged, not reset. -/
theorem settlement_fault_wedges (cfg : Cfg) (f : Faults) (st : SchedState)
    (now : Nat) (hpr : st.processing = false) (hne : st.batch ≠ [])
    (hpres : ∀ b ∈ st.batch, (kvGet st.balances b.token).isSome)
    (hfail : f.failDeleteAlarm = true ∨ f.failGetBalances = true ∨
      f.failGetNames = true ∨ f.failPutBalances = true ∨
      f.failPutMessage = true) :
    ∃ st2, processBatchF cfg f st now = .storageError st2 ∧
      st2.batch = st.batch ∧ st2.pending = st.pending ∧
      st2.processing = true ∧ st2.log = st.log ∧
      (∀ f2 now2, processBatchF cfg f2 st2 now2 = .skipped st2) := by
  have hall : (uniqueBids st.batch).all
      (fun b => (kvGet st.balances b.token).isSome) = true :=
    List.all_eq_true.mpr fun b hb => hpres b (mem_uniqueBids hb)
  have wedge : ∀ (st2 : SchedState), st2.processing = true →
      ∀ (f2 : Faults) (now2 : Nat),
        processBatchF cfg f2 st2 now2 = .skipped st2 := by
    intro st2 h2 f2 now2
    unfold processBatchF
    rw [h2]
    simp
  by_cases h1 : f.failDeleteAlarm = true
  · refine ⟨{ st with processing := true }, ?_, rfl, rfl, rfl, rfl,
      wedge _ rfl⟩
    unfold processBatchF
    rw [hpr, h1]
    simp
  · by_cases h2 : (f.failGetBalances || f.failGetNames) = true
    · refine ⟨{ st with processing := true, alarm := none }, ?_, rfl, rfl,
        rfl, rfl, wedge _ rfl⟩
      unfold processBatchF
      rw [hpr, h2]
      simp [h1]
    · obtain ⟨w, rest, hsort⟩ :
          ∃ w rest, sortBids (uniqueBids st.batch) = w :: rest := by
        rcases hs : sortBids (uniqueBids st.batch) with _ | ⟨w, rest⟩
        · exfalso
          have hperm := sortBids_perm (uniqueBids st.batch)
          rw [hs] at hperm
          exact (uniqueBids_ne_nil hne) hperm.symm.eq_nil
        · exact ⟨w, rest, rfl⟩
      by_cases h4 : f.failPutBalances = true
      · refine ⟨{ st with processing := true, alarm := none }, ?_, rfl, rfl,
          rfl, rfl, wedge _ rfl⟩
        unfold processBatchF
        rw [hpr, hall, hsort, h4]
        simp [h1, h2]
      · have h5 : f.failPutMessage = true := by
          rcases hfail with h | h | h | h | h
          · exact absurd h h1
          · exact absurd (by simp [h]) h2
          · exact absurd (by simp [h]) h2
          · exact absurd h h4
          · exact h
        refine ⟨{ st with
            processing := true, alarm := none,
            balances := putAll ((uniqueBids st.batch).map (·.token))
              (settledBalances cfg w rest (loadedBal st)) st.balances },
          ?_, rfl, rfl, rfl, rfl, wedge _ rfl⟩
        unfold processBatchF
        rw [hpr, hall, hsort, h5]
        simp [h1, h2, h4]

/-- Witness for C4 (amended) with a failing `deleteAlarm` on scenario
S2's pre-settlement state. -/
theorem settlement_fault_wedges_witness :
    (stAB.processing = false ∧ stAB.batch ≠ [] ∧
      (∀ b ∈ stAB.batch, (kvGet stAB.balances b.token).isSome) ∧
      (faultDeleteAlarm.failDeleteAlarm = true ∨
        faultDeleteAlarm.failGetBalances = true ∨
        faultDeleteAlarm.failGetNames = true ∨
        faultDeleteAlarm.failPutBalances = true ∨
        faultDeleteAlarm.failPutMessage = true)) ∧
    (∃ st2, processBatchF defCfg faultDeleteAlarm stAB 0 =
        .storageError st2 ∧
      st2.batch = stAB.batch ∧ st2.pending = stAB.pending ∧
      st2.processing = true ∧ st2.log = stAB.log ∧
      (∀ f2 now2, processBatchF defCfg f2 st2 now2 = .skipped st2)) :=
  ⟨⟨by decide, by decide, by decide, by decide⟩,
    settlement_fault_wedges defCfg faultDeleteAlarm stAB 0 (by decide)
      (by decide) (by decide) (by decide)⟩

/-! ## Token generation (`generateToken`, `scheduler.js:447-455`, C9) -/

/-- The base64 alphabet used by `btoa`. -/
def b64Chars : List Char :=
  "ABCDEFGHIJKLMNOPQRSTUVWXYZabcdefghijklmnopqrstuvwxyz0123456789+/".toList

def sextet (n : Nat) : Char := b64Chars.getD (n % 64) 'A'

/-- `btoa` on a byte list: standard base64, `'='`-padded. -/
def btoa : List Nat → List Char
  | [] => []
  | [a] => [sextet (a / 4), sextet (a % 4 * 16), '=', '=']
  | [a, b] => [sextet (a / 4), sextet (a % 4 * 16 + b / 16),
      sextet (b % 16 * 4), '=']
  | a :: b :: c :: rest =>
    sextet (a / 4) :: sextet (a % 4 * 16 + b / 16) ::
      sextet (b % 16 * 4 + c / 64) :: sextet (c % 64) :: btoa rest

/-- `generateToken` on a concrete randomness outcome: base64 the 12
bytes, strip `'+'` and `'/'`, then `.slice(0, 16)`. -/
def generateToken (bytes : List Nat) : List Char :=
  ((btoa bytes).filter (fun ch => !(ch == '+' || ch == '/'))).take 16

theorem btoa_len : ∀ (l : List Nat), l.length % 3 = 0 →
    (btoa l).length = 4 * (l.length / 3)
  | [], _ => rfl
  | [_], h => by simp at h
  | [_, _], h => by simp at h
  | a :: b :: c :: rest, h => by
    have hr : rest.length % 3 = 0 := by
      simp only [List.length_cons] at h
      omega
    have ih := btoa_len rest hr
    have hstep : (btoa (a :: b :: c :: rest)).length =
        (btoa rest).length + 4 := by
      show (sextet (a / 4) :: sextet (a % 4 * 16 + b / 16) ::
        sextet (b % 16 * 4 + c / 64) :: sextet (c % 64) :: btoa rest).length
        = (btoa rest).length + 4
      simp only [List.length_cons]
    rw [hstep, ih]
    simp only [List.length_cons]
    omega

/-- C9 counterexample: twelve `0xFF` bytes encode to sixteen `'/'`
characters; stripping happens before the slice, so the resulting token is
empty — not "exactly 16 characters long". -/
theorem token_length_counterexample :
    (List.replicate 12 255).length = 12 ∧
    btoa (List.replicate 12 255) = List.replicate 16 '/' ∧
    generateToken (List.replicate 12 255) = [] ∧
    (generateToken (List.replicate 12 255)).length ≠ 16 := by
  decide

/-- For a 12-byte input, a `'+'` or `'/'` anywhere in the base64 output
is stripped before the slice and therefore shortens the token below 16. -/
theorem token_short_of_mem (bytes : List Nat) (h : bytes.length = 12)
    (ch : Char) (hch : ch ∈ btoa bytes) (hbad : ch = '+' ∨ ch = '/') :
    (generateToken bytes).length < 16 := by
  have hfail : ¬ ((fun c => !(c == '+' || c == '/')) ch = true) := by
    rcases hbad with rfl | rfl <;> simp
  have hlt : ((btoa bytes).filter (fun c => !(c == '+' || c == '/'))).length
      < (btoa bytes).length :=
    List.length_filter_lt_length_iff_exists.mpr ⟨ch, hch, hfail⟩
  have hlen : (btoa bytes).length = 16 := by
    have hb := btoa_len bytes (by rw [h])
    rw [h] at hb
    simpa using hb
  unfold generateToken
  rw [List.length_take]
  omega

/-- C9 (amended).  For every outcome of the 12 random bytes the token
contains no `'+'` or `'/'` and is AT MOST 16 characters long; it is
exactly 16 characters IF AND ONLY IF no stripping occurred, i.e. iff the
base64 encoding itself contains no `'+'` or `'/'` (each stripped
character shortens the token below 16). -/
theorem token_format (bytes : List Nat) (h : bytes.length = 12) :
    (generateToken bytes).length ≤ 16 ∧
    (∀ ch ∈ generateToken bytes, ch ≠ '+' ∧ ch ≠ '/') ∧
    ((generateToken bytes).length = 16 ↔
      (∀ ch ∈ btoa bytes, ch ≠ '+' ∧ ch ≠ '/')) := by
  refine ⟨?_, ?_, ?_, ?_⟩
  · exact List.length_take_le 16 _
  · intro ch hch
    unfold generateToken at hch
    have hch2 := List.mem_of_mem_take hch
    have hfil := (List.mem_filter.mp hch2).2
    constructor <;> (intro hbad; subst hbad; simp at hfil)
  · intro h16 ch hch
    constructor <;> (intro hbad
                     exact absurd h16 (Nat.ne_of_lt
                       (token_short_of_mem bytes h ch hch (by simp [hbad]))))
  · intro hclean
    unfold generateToken
    have hfeq : (btoa bytes).filter (fun ch => !(ch == '+' || ch == '/')) =
        btoa bytes := by
      apply List.filter_eq_self.mpr
      intro ch hch
      have hc := hclean ch hch
      simp [hc.1, hc.2]
    rw [hfeq, List.length_take]
    have hlen : (btoa bytes).length = 16 := by
      have hb := btoa_len bytes (by rw [h])
      rw [h] at hb
      simpa using hb
    rw [hlen]
    simp

/-- Witness for C9 (amended) at the all-zero bytes: token "AAAAAAAAAAAAAAAA". -/
theorem token_format_witness :
    (List.replicate 12 0).length = 12 ∧
    ((generateToken (List.replicate 12 0)).length ≤ 16 ∧
      (∀ ch ∈ generateToken (List.replicate 12 0), ch ≠ '+' ∧ ch ≠ '/') ∧
      ((generateToken (List.replicate 12 0)).length = 16 ↔
        (∀ ch ∈ btoa (List.replicate 12 0), ch ≠ '+' ∧ ch ≠ '/'))) :=
  ⟨by decide, token_format (List.replicate 12 0) (by decide)⟩

/-! ## HTTP routing (`fetch`, `scheduler.js:20-64`, C10) -/

inductive HttpMethod
  | get | post | put | options | delete
deriving DecidableEq, Repr

/-- Where `fetch` dispatches a request: a named handler, the CORS
preflight, or the common `'Not found'` 404 that every `switch`
fall-through (`break` on method mismatch, or no matching `case`) reaches. -/
inductive Routed
  | preflight | register | sendMessage | replayMessages | getBalance
  | listClients | deleteAll | notFound
deriving DecidableEq, Repr

/-- The `fetch` router (`scheduler.js:25-59`): OPTIONS short-circuits,
then the pathname switch dispatches only on an exact method match and
every other combination falls through to `'Not found'`. -/
def route (m : HttpMethod) (path : String) : Routed :=
  if m = .options then .preflight
  else if path = "/register" then
    (if m = .put then .register else .notFound)
  else if path = "/messages" then
    (if m = .post then .sendMessage
     else if m = .get then .replayMessages else .notFound)
  else if path = "/balance" then
    (if m = .get then .getBalance else .notFound)
  else if path = "/clients" then
    (if m = .get then .listClients else .notFound)
  else if path = "/delete" then
    (if m = .get then .deleteAll else .notFound)
  else .notFound

/-- The HTTP status determined by routing alone: 404 for `'Not found'`,
200 for the preflight, and 0 for "dispatched to a handler" (the handler
picks the status from the request body/headers). -/
def routeStatus (m : HttpMethod) (path : String) : Nat :=
  match route m path with
  | .notFound => 404
  | .preflight => 200
  | _ => 0

/-- The five pathnames with a `case` in the switch. -/
def knownPaths : List String :=
  ["/register", "/messages", "/balance", "/clients", "/delete"]

/-- The method the switch dispatches for each route. -/
@[reducible]
def methodAllowed (m : HttpMethod) (path : String) : Prop :=
  (path = "/register" ∧ m = .put) ∨
  (path = "/messages" ∧ (m = .post ∨ m = .get)) ∨
  (path = "/balance" ∧ m = .get) ∨
  (path = "/clients" ∧ m = .get) ∨
  (path = "/delete" ∧ m = .get)

/-- C10 counterexample: `POST /register` hits an existing route with a
mismatched method, and the scheduler responds `'Not found'` 404 — not
405 MethodNotAllowed.  (The handlers' own 405 checks are unreachable:
`fetch` only calls a handler when the method already matches.) -/
theorem method_mismatch_counterexample :
    route .post "/register" = .notFound ∧
    routeStatus .post "/register" = 404 ∧
    "/register" ∈ knownPaths ∧ ¬ methodAllowed .post "/register" := by
  decide

/-- C10 (amended).  For every non-OPTIONS request: a known path with a
mismatched method routes to the same `'Not found'` 404 as an unknown
path, and the router never produces a 405 at all. -/
theorem router_method_mismatch (m : HttpMethod) (p : String)
    (hm : m ≠ .options) :
    (p ∈ knownPaths → ¬ methodAllowed m p → route m p = .notFound) ∧
    (p ∉ knownPaths → route m p = .notFound) ∧
    routeStatus m p ≠ 405 := by
  refine ⟨?_, ?_, ?_⟩
  · intro hp hnall
    simp only [knownPaths, List.mem_cons, List.not_mem_nil, or_false]
      at hp
    rcases hp with rfl | rfl | rfl | rfl | rfl <;>
      cases m <;>
        first
          | exact absurd rfl hm
          | exact absurd (by decide) hnall
          | decide
  · intro hnp
    have h1 : ¬ p = "/register" := fun he => hnp (by rw [he]; decide)
    have h2 : ¬ p = "/messages" := fun he => hnp (by rw [he]; decide)
    have h3 : ¬ p = "/balance" := fun he => hnp (by rw [he]; decide)
    have h4 : ¬ p = "/clients" := fun he => hnp (by rw [he]; decide)
    have h5 : ¬ p = "/delete" := fun he => hnp (by rw [he]; decide)
    unfold route
    rw [if_neg hm, if_neg h1, if_neg h2, if_neg h3, if_neg h4, if_neg h5]
  · unfold routeStatus
    rcases route m p <;> decide

/-- Witness for C10 (amended): a GET on an unknown path is 404. -/
theorem router_method_mismatch_witness :
    HttpMethod.get ≠ HttpMethod.options ∧
    route .get "/nosuch" = .notFound :=
  ⟨by decide,
    (router_method_mismatch .get "/nosuch" (by decide)).2.1 (by decide)⟩

end MsgBid
